import Mathlib

/-!
Verification development for the Lyra recruiting-signal engine
(training/evaluation pipeline and inference facade).

The Lean definitions below are a shallow embedding of the Python sources:

* `ml_training/utils.py`   — `ROLE_BUCKETS`, `NARRATIVE_LABELS`,
  `canonicalize_url`, `softmax_rows`
* `ml_training/models.py`  — `RoleCompositionModel` (`predict`, `predict_raw`)
* `ml_training/retriever.py` — `get_similar_posts`
* `ml_training/data_loader.py` — `_load_posts`, `_assert_unique_posts`
* `ml_training/eval.py`    — narrative threshold handling
* `services/ml_api/predictor.py` — `_role_distribution`, `_narratives`,
  `_risk_model_preds`, `_risk_rule_based`, `compare`, `_compare_top_phrases`

Floating-point values are modelled as real numbers (`ℝ`) where the code
computes with `exp`, and as rationals (`ℚ`) where only field arithmetic and
comparisons occur (every IEEE double is a rational).  Machine text is
modelled as `String` / `List Char` with ASCII case folding, matching the
ASCII inputs the pipeline processes.
-/

/-- Fixed role buckets, from `ml_training/utils.py` (`ROLE_BUCKETS`). -/
def ROLE_BUCKETS : List String :=
  [ "Founder/Executive", "Recruiter/HR", "Software Engineer", "ML/AI/Data",
    "DevOps/SRE/Cloud", "Security", "Engineering Manager/Tech Lead",
    "Product Manager", "Designer", "Sales/BD", "Marketing/Growth", "Ops",
    "Student/Academic", "Other" ]

/-- Fixed narrative labels, from `ml_training/utils.py` (`NARRATIVE_LABELS`). -/
def NARRATIVE_LABELS : List String :=
  [ "toxic_culture", "burnout", "elitism", "credibility_overclaim",
    "culture_misalignment" ]

/-- Maximum of a row, modelling `np.max(row)` over a nonempty row
(`np.max(arr, axis=1)` reduces each row to its largest entry). -/
noncomputable def rowMax : List ℝ → ℝ
  | [] => 0
  | x :: xs => xs.foldl max x

/-- The clipped divisor of `softmax_rows` for one row:
`np.clip(exp_vals.sum(axis=1), 1e-12, None)` from `ml_training/utils.py`. -/
noncomputable def clippedRowSum (row : List ℝ) : ℝ :=
  max ((row.map (fun v => Real.exp (v - rowMax row))).sum) ((1 : ℝ) / 10 ^ 12)

/-- One row of `softmax_rows` (`ml_training/utils.py`, lines 78-83):
subtract the row maximum, exponentiate, divide by the clipped row sum. -/
noncomputable def softmaxRow (row : List ℝ) : List ℝ :=
  (row.map (fun v => Real.exp (v - rowMax row))).map (fun e => e / clippedRowSum row)

/-- `softmax_rows` from `ml_training/utils.py`.  `none` models the
`ValueError` numpy raises when `np.max(arr, axis=1)` reduces a zero-size
axis (a matrix with empty rows); otherwise the row-wise softmax is taken. -/
noncomputable def softmax_rows (arr : List (List ℝ)) : Option (List (List ℝ)) :=
  if arr.any (fun r => r.isEmpty) then none else some (arr.map softmaxRow)

/-- A fitted `RoleCompositionModel` (`ml_training/models.py`).  The fitted
pipeline (`TfidfVectorizer` + `MultiOutputRegressor(RidgeCV)`) is abstracted
as the raw regression output `predict_raw` per input text; fitting against
the `ROLE_BUCKETS` share targets yields one regression output per bucket,
so each raw row has length `ROLE_BUCKETS.length`. -/
structure RoleCompositionModel where
  predict_raw : String → List ℝ
  predict_raw_length : ∀ x, (predict_raw x).length = ROLE_BUCKETS.length

/-- `RoleCompositionModel.predict` (`ml_training/models.py`, lines 58-62):
the raw pipeline outputs passed through `softmax_rows`. -/
noncomputable def RoleCompositionModel.predict (m : RoleCompositionModel)
    (X : List String) : Option (List (List ℝ)) :=
  softmax_rows (X.map m.predict_raw)

/-- One row of `scipy.special.softmax(raw_preds, axis=1)` as used by
`Predictor._role_distribution`: exponentials of the max-shifted row divided
by their (unclipped) sum. -/
noncomputable def scipySoftmaxRow (row : List ℝ) : List ℝ :=
  (row.map (fun v => Real.exp (v - rowMax row))).map
    (fun e => e / (row.map (fun v => Real.exp (v - rowMax row))).sum)

/-- Tolerance of `np.isclose(x, 1.0)`: `atol + rtol * |1.0|` with the numpy
defaults `atol = 1e-8`, `rtol = 1e-5`. -/
noncomputable def npIsCloseOneTol : ℝ := 1 / 10 ^ 8 + 1 / 10 ^ 5

open Classical in
/-- `Predictor._role_distribution` (`services/ml_api/predictor.py`, lines
79-86), as the vector of per-bucket values: `raw_preds` is the output of
`self.role_model.predict([text])` (already softmax-normalised by
`RoleCompositionModel.predict`); if any entry is negative or the row sum is
not close to 1, `scipy.special.softmax` is applied, otherwise the row is
passed through unchanged. -/
noncomputable def role_distribution (m : RoleCompositionModel) (text : String) :
    List ℝ :=
  if (∃ v ∈ softmaxRow (m.predict_raw text), v < 0) ∨
      ¬ |(softmaxRow (m.predict_raw text)).sum - 1| ≤ npIsCloseOneTol then
    scipySoftmaxRow (softmaxRow (m.predict_raw text))
  else
    softmaxRow (m.predict_raw text)

/-- The harmful narrative labels of `Predictor._risk_rule_based`
(`services/ml_api/predictor.py`, line 109). -/
def harmful_labels : List String :=
  [ "toxic_culture", "elitism", "credibility_overclaim", "culture_misalignment" ]

/-- Flag lookup `narratives.get(lbl, {}).get("flag")` with Python
truthiness: a missing label (or missing flag) is falsy. -/
def lookupFlag (narratives : List (String × Bool)) (lbl : String) : Bool :=
  ((narratives.lookup lbl).getD false)

/-- `Predictor._risk_rule_based` (`services/ml_api/predictor.py`, lines
108-114): any harmful-label flag forces "Harmful", else a burnout flag
gives "Harmless", else "Helpful". -/
def risk_rule_based (narratives : List (String × Bool)) : String :=
  if harmful_labels.any (fun lbl => lookupFlag narratives lbl) then "Harmful"
  else if lookupFlag narratives "burnout" then "Harmless"
  else "Helpful"

/-- The headline risk class placed in the analyze response
(`predictor.py`, line 233): the rule-based class; the statistical model's
probability map is carried alongside but does not enter this field. -/
def analyze_risk_class (narratives : List (String × Bool))
    (risk_probs : List (String × ℝ)) : String :=
  match risk_probs with
  | _ => risk_rule_based narratives

/-- The three expected risk classes of `Predictor._risk_model_preds`
(`services/ml_api/predictor.py`, line 100). -/
def expected_risk_classes : List String := [ "Helpful", "Harmless", "Harmful" ]

/-- Python `dict` assignment `d[k] = v` on an association list: overwrite
the entry of an existing key in place, otherwise append a new entry. -/
def pyDictSet {α : Type} (d : List (String × α)) (k : String) (v : α) :
    List (String × α) :=
  if d.any (fun p => p.1 == k) then
    d.map (fun p => if p.1 == k then (p.1, v) else p)
  else d ++ [ (k, v) ]

/-- Python `d.get(k, dflt)` on an association list. -/
def pyDictGetD {α : Type} (d : List (String × α)) (k : String) (dflt : α) : α :=
  (d.lookup k).getD dflt

/-- The probability map built by `Predictor._risk_model_preds`
(`services/ml_api/predictor.py`, lines 97-106): a dict initialised with 0.0
for the three expected classes, then `prob_map[str(cls)] = float(prob)` for
each `(cls, prob)` in `zip(model_classes, probs)`. -/
def risk_prob_map (model_classes : List String) (probs : List ℝ) :
    List (String × ℝ) :=
  (model_classes.zip probs).foldl (fun d cp => pyDictSet d cp.1 cp.2)
    (expected_risk_classes.map (fun lbl => (lbl, (0 : ℝ))))

/-- Logistic sigmoid: `predict_proba` of a fitted binary
`LogisticRegression` is `1 / (1 + exp(-margin))` of its decision margin. -/
noncomputable def sigmoid (z : ℝ) : ℝ := 1 / (1 + Real.exp (-z))

/-- A fitted narrative classifier (`build_narrative_model` in
`ml_training/models.py`): one binary logistic regression per label behind a
shared TF-IDF step, abstracted as the per-label decision margin of an input
text.  `OneVsRestClassifier.predict_proba` in the multilabel case returns
each label's own sigmoid probability without renormalisation. -/
structure NarrativeModel where
  decision : String → ℕ → ℝ

/-- Per-label probability returned by
`self.narrative_model.predict_proba([text])` (`predictor.py`, line 89 and
`eval.py`, line 57). -/
noncomputable def narrative_prob (m : NarrativeModel) (text : String) (idx : ℕ) :
    ℝ :=
  sigmoid (m.decision text idx)

/-- The serving-time flag threshold hardcoded in `Predictor._narratives`
(`services/ml_api/predictor.py`, line 93: `flag = prob >= 0.10`). -/
noncomputable def serving_narrative_threshold : ℝ := 1 / 10

/-- The serving-time flag of `Predictor._narratives`: `prob >= 0.10`. -/
noncomputable def narrative_flag (m : NarrativeModel) (text : String) (idx : ℕ) :
    Prop :=
  narrative_prob m text idx ≥ serving_narrative_threshold

/-- The `(prob, flag)` entry `Predictor._narratives` computes for one label,
parameterised additionally by the predictor's metadata-loaded
`narrative_threshold` field, which the method reads in `__init__` but does
not consult when flagging. -/
noncomputable def narratives_entry (m : NarrativeModel) (metaThreshold : ℝ)
    (text : String) (idx : ℕ) : ℝ × Prop :=
  match metaThreshold with
  | _ => (narrative_prob m text idx, narrative_flag m text idx)

/-- The offline prediction of `evaluate_narrative_model`
(`ml_training/eval.py`, line 58): `y_pred = (y_prob >= threshold)`. -/
noncomputable def eval_narrative_pred (m : NarrativeModel) (text : String)
    (threshold : ℝ) (idx : ℕ) : Prop :=
  narrative_prob m text idx ≥ threshold

/-- The reporting threshold `train_all.py` passes to
`evaluate_narrative_model` and `run_group_cv_narrative`
(`ml_training/train_all.py`, lines 87 and 96: `threshold=0.5`). -/
noncomputable def train_all_narrative_threshold : ℝ := 1 / 2

/-- Python `round(x, ndigits)` rounds half to even.  `roundHalfToEven`
is the integer-valued core. -/
def roundHalfToEven (x : ℚ) : ℤ :=
  if Int.fract x < 1 / 2 then ⌊x⌋
  else if 1 / 2 < Int.fract x then ⌊x⌋ + 1
  else if Even ⌊x⌋ then ⌊x⌋ else ⌊x⌋ + 1

/-- Python `round(x, nd)` for nonnegative `nd` digits. -/
def pyRound (nd : ℕ) (x : ℚ) : ℚ := (roundHalfToEven (x * 10 ^ nd) : ℚ) / 10 ^ nd

/-- The slice of an analyze response that `Predictor.compare` reads:
`role_distribution_all` (role/pct pairs), `risk.risk_probs` and
`evidence.risk_top_ngrams` (ngram/weight pairs). -/
structure AnalyzeOut where
  role_distribution_all : List (String × ℚ)
  risk_probs : List (String × ℚ)
  risk_top_ngrams : List (String × ℚ)
  deriving DecidableEq

/-- The generator-with-default lookup in `Predictor.compare`
(`predictor.py`, line 264):
`next((v["pct"] for v in variant_roles if v["role"] == role), 0.0)`. -/
def lookupRolePct (entries : List (String × ℚ)) (role : String) : ℚ :=
  ((entries.find? (fun p => p.1 == role)).map Prod.snd).getD 0

/-- `role_pct_delta` of `Predictor.compare` (`predictor.py`, lines 262-269):
per baseline role entry, the rounded difference between the variant's pct
(0.0 if absent) and the baseline's pct. -/
def role_pct_delta (baseline variant : AnalyzeOut) : List (String × ℚ) :=
  baseline.role_distribution_all.map
    (fun e => (e.1, pyRound 4 (lookupRolePct variant.role_distribution_all e.1 - e.2)))

/-- `risk_prob_delta` of `Predictor.compare` (`predictor.py`, lines
270-273): rounded differences of `risk_probs.get(k, 0.0)` over the three
risk classes. -/
def risk_prob_delta (baseline variant : AnalyzeOut) : List (String × ℚ) :=
  expected_risk_classes.map
    (fun k => (k, pyRound 6 (pyDictGetD variant.risk_probs k 0 -
      pyDictGetD baseline.risk_probs k 0)))

/-- Sorting key step of `Predictor._compare_top_phrases`:
`items.sort(key=lambda x: abs(x["weight"]), reverse=True)` is a stable
descending sort by absolute weight; insertion with the reflexive relation
`|a| ≥ |b|` keeps earlier items ahead of later items of equal key. -/
def sortByAbsWeightDesc (items : List (String × ℚ)) : List (String × ℚ) :=
  List.insertionSort (fun a b => |b.2| ≤ |a.2|) items

/-- `Predictor._compare_top_phrases` (`predictor.py`, lines 290-300):
baseline weights are subtracted into a merge dict, variant weights added,
and the merged items are returned sorted by absolute weight, top 10. -/
def compare_top_phrases (baseline_phrases variant_phrases : List (String × ℚ)) :
    List (String × ℚ) :=
  ((sortByAbsWeightDesc
    (variant_phrases.foldl
      (fun merged item => pyDictSet merged item.1 (pyDictGetD merged item.1 0 + item.2))
      (baseline_phrases.foldl
        (fun merged item => pyDictSet merged item.1 (pyDictGetD merged item.1 0 - item.2))
        [])))).take 10

/-- The delta block of a `Predictor.compare` response. -/
structure CompareDelta where
  role_pct_delta : List (String × ℚ)
  risk_prob_delta : List (String × ℚ)
  changed_top_phrases : List (String × ℚ)
  deriving DecidableEq

/-- `Predictor.compare` (`predictor.py`, lines 256-288), restricted to the
delta block.  The two analyze calls are abstracted by the deterministic
`analyze` function induced by the loaded artifacts. -/
def compare (analyze : String → AnalyzeOut) (baseline_text variant_text : String) :
    CompareDelta :=
  { role_pct_delta := role_pct_delta (analyze baseline_text) (analyze variant_text)
    risk_prob_delta := risk_prob_delta (analyze baseline_text) (analyze variant_text)
    changed_top_phrases := compare_top_phrases
      (analyze baseline_text).risk_top_ngrams
      (analyze variant_text).risk_top_ngrams }

/-- Dot product of two equal-length vectors (trailing entries of the longer
vector are ignored, as all uses have equal lengths). -/
noncomputable def dotList (a b : List ℝ) : ℝ :=
  ((a.zip b).map (fun p => p.1 * p.2)).sum

/-- Cosine similarity of a query vector against one matrix row, modelling
`sklearn.metrics.pairwise.cosine_similarity`.  A zero-norm vector yields 0
both here (division by zero is 0 in `ℝ`) and in sklearn (which substitutes
norm 1 for zero norms, and the dot product is then 0). -/
noncomputable def cosine_similarity (q r : List ℝ) : ℝ :=
  dotList q r / (Real.sqrt (dotList q q) * Real.sqrt (dotList r r))

/-- The order numpy's insertion sort arranges row indices in: ascending
similarity, ties in ascending index order.  `np.argsort`'s default
quicksort (introsort) runs this insertion sort on partitions of at most
`SMALL_QUICKSORT` (15) elements, so for arrays that short it IS this
stable order; for longer arrays the pivoting scrambles equal keys and only
`npArgsortSpec` below is guaranteed. -/
def argsortRel (sims : List ℝ) (i j : ℕ) : Prop :=
  sims.getD i 0 < sims.getD j 0 ∨ (sims.getD i 0 = sims.getD j 0 ∧ i ≤ j)

instance (sims : List ℝ) : IsTotal ℕ (argsortRel sims) where
  total i j := by
    rcases lt_trichotomy (sims.getD i 0) (sims.getD j 0) with h | h | h
    · exact Or.inl (Or.inl h)
    · rcases le_total i j with hij | hij
      · exact Or.inl (Or.inr ⟨h, hij⟩)
      · exact Or.inr (Or.inr ⟨h.symm, hij⟩)
    · exact Or.inr (Or.inl h)

instance (sims : List ℝ) : IsTrans ℕ (argsortRel sims) where
  trans i j k hij hjk := by
    rcases hij with h1 | ⟨e1, l1⟩
    · rcases hjk with h2 | ⟨e2, l2⟩
      · exact Or.inl (h1.trans h2)
      · exact Or.inl (e2 ▸ h1)
    · rcases hjk with h2 | ⟨e2, l2⟩
      · refine Or.inl ?_
        rw [e1]
        exact h2
      · exact Or.inr ⟨e1.trans e2, l1.trans l2⟩

open Classical in
/-- `np.argsort(sims)` in the small-array regime (at most 15 elements,
below numpy's `SMALL_QUICKSORT` introsort cutoff), where the default sort
is exactly a stable ascending insertion sort: the indices `0, ..., len-1`
sorted ascending by similarity with ties in ascending index order.  For
longer arrays the unstable introsort guarantees only `npArgsortSpec`. -/
noncomputable def np_argsort (sims : List ℝ) : List ℕ :=
  List.insertionSort (argsortRel sims) (List.range sims.length)

/-- The contract `np.argsort(sims)` honours for EVERY array length and
sort kind: the result is a permutation of `0, ..., len-1` arranged in
ascending similarity order.  Nothing more is guaranteed — the default
quicksort (introsort) is unstable above its 15-element insertion-sort
cutoff, so the relative order of equal-similarity indices is unspecified
there. -/
def npArgsortSpec (sims : List ℝ) (idx : List ℕ) : Prop :=
  idx.Perm (List.range sims.length) ∧
    idx.Pairwise (fun i j => sims.getD i 0 ≤ sims.getD j 0)

/-- `get_similar_posts` with the argsort result abstracted: given the
index order `idx` that `np.argsort(similarities)` returned, the code takes
`idx[::-1][:k]` and pairs each selected row index with its similarity. -/
noncomputable def get_similar_posts_with (idx : List ℕ) (q : List ℝ)
    (matrix : List (List ℝ)) (k : ℕ) : List (ℕ × ℝ) :=
  (idx.reverse.take k).map
    (fun i => (i, (matrix.map (cosine_similarity q)).getD i 0))

/-- `get_similar_posts` (`ml_training/retriever.py`, lines 59-80) and
equally `Predictor._similar_posts` (`predictor.py`, lines 116-136), as the
list of `(row index, similarity)` results: similarities of the query
against every training row, then `np.argsort(similarities)[::-1][:k]`.
Exact for matrices of at most 15 rows, where `np.argsort` is the stable
insertion sort; for larger matrices the tie order is unspecified and
`get_similar_posts_with` quantifies over the possible index orders. -/
noncomputable def get_similar_posts (q : List ℝ) (matrix : List (List ℝ))
    (k : ℕ) : List (ℕ × ℝ) :=
  ((np_argsort (matrix.map (cosine_similarity q))).reverse.take k).map
    (fun i => (i, (matrix.map (cosine_similarity q)).getD i 0))

/-- ASCII whitespace stripped by Python `str.strip()`. -/
def isPyWs (c : Char) : Bool :=
  c == ' ' || c == '\t' || c == '\n' || c == '\r' || c == '\x0b' || c == '\x0c'

/-- Python `str.strip()` over a character list. -/
def pyStripList (s : List Char) : List Char :=
  ((s.dropWhile isPyWs).reverse.dropWhile isPyWs).reverse

/-- Python `str.strip()`. -/
def pyStrip (s : String) : String := String.mk (pyStripList s.toList)

/-- Removal of the unsafe URL bytes tab, carriage return and newline, which
`urllib.parse.urlsplit` deletes from anywhere in its input. -/
def removeUnsafeBytes (s : List Char) : List Char :=
  s.filter (fun c => !(c == '\t' || c == '\r' || c == '\n'))

/-- Membership in `_WHATWG_C0_CONTROL_OR_SPACE`: the C0 control characters
and the space character, left-stripped by `urllib.parse.urlsplit`. -/
def isC0OrSpace (c : Char) : Bool := c.toNat ≤ 32

/-- The `uses_netloc` scheme list of `urllib.parse` (CPython 3.11). -/
def uses_netloc : List String :=
  [ "", "ftp", "http", "gopher", "nntp", "telnet", "imap", "wais", "file",
    "mms", "https", "shttp", "snews", "prospero", "rtsp", "rtsps", "rtspu",
    "rsync", "svn", "svn+ssh", "sftp", "nfs", "git", "git+ssh", "ws", "wss" ]

/-- Characters permitted in a URL scheme after the first
(`urllib.parse.scheme_chars`): ASCII letters, digits, and `+`, `-`, `.`. -/
def isSchemeChar (c : Char) : Bool :=
  c.isAlphanum || c == '+' || c == '-' || c == '.'

/-- Characters ending the network-location part (`urllib.parse._splitnetloc`
stops at the first of `/`, `?`, `#`). -/
def isNetlocDelim (c : Char) : Bool := c == '/' || c == '?' || c == '#'

/-- Split a list at the first character satisfying `p`: the first component
holds everything before it, the second starts with it (or is empty). -/
def splitAtFirst (p : Char → Bool) (s : List Char) : List Char × List Char :=
  (s.takeWhile (fun c => !p c), s.dropWhile (fun c => !p c))

/-- The scheme-detection step of `urllib.parse.urlsplit`: with `i` the index
of the first `:`, a scheme is recognised when `i > 0` (a colon exists and
is not first), the first character is an ASCII letter and everything before
the `:` is a scheme character; the scheme is returned lowercased together
with the remainder after the `:`. -/
def schemeSplit (url : List Char) : List Char × List Char :=
  if (splitAtFirst (fun c => c == ':') url).2 != ([] : List Char) &&
      (splitAtFirst (fun c => c == ':') url).1 != ([] : List Char) &&
      (url.headD ' ').isAlpha &&
      (splitAtFirst (fun c => c == ':') url).1.all isSchemeChar then
    ((splitAtFirst (fun c => c == ':') url).1.map Char.toLower,
      (splitAtFirst (fun c => c == ':') url).2.tail)
  else ([], url)

/-- The netloc step of `urllib.parse.urlsplit`: after a leading `//`, the
network location runs to the first `/`, `?` or `#` (`_splitnetloc`). -/
def netlocSplit (rest : List Char) : List Char × List Char :=
  if rest.take 2 == ([ '/', '/' ] : List Char) then
    splitAtFirst isNetlocDelim (rest.drop 2)
  else ([], rest)

/-- The path a remainder yields after `urlsplit` removes the fragment (at
the first `#`) and then the query (at the first `?`). -/
def parsePath (rest2 : List Char) : List Char :=
  (splitAtFirst (fun c => c == '?')
    ((splitAtFirst (fun c => c == '#') rest2).1)).1

/-- The five components returned by `urllib.parse.urlsplit`. -/
structure SplitResult where
  scheme : List Char
  netloc : List Char
  path : List Char
  query : List Char
  fragment : List Char
  deriving DecidableEq

/-- `urllib.parse.urlsplit` (CPython 3.11, `allow_fragments=True`):
left-strip C0 controls and spaces, remove unsafe bytes, detect a scheme,
take the network location after a leading `//` up to the first `/`, `?` or
`#`, split the fragment at the first `#` and the query at the first `?`.
`none` models the `ValueError` raised for a netloc holding `[` without `]`
or vice versa ("Invalid IPv6 URL").  The additional ipaddress-based
validation of bracketed hosts and the NFKC netloc check (which pass for
every bracket-free ASCII netloc, the only ones arising in this
development) are not modelled. -/
def urlsplit (url : List Char) : Option SplitResult :=
  let url1 := removeUnsafeBytes (url.dropWhile isC0OrSpace)
  let sp := schemeSplit url1
  let nl := netlocSplit sp.2
  if (nl.1.contains '[') != (nl.1.contains ']') then none
  else
    some { scheme := sp.1, netloc := nl.1, path := parsePath nl.2,
           query := (splitAtFirst (fun c => c == '?')
             ((splitAtFirst (fun c => c == '#') nl.2).1)).2.tail,
           fragment := (splitAtFirst (fun c => c == '#') nl.2).2.tail }

/-- `urllib.parse.urlunsplit` (CPython 3.11): reassemble the five
components, inserting `//` before the netloc when one is present or when
the scheme customarily uses a netloc and the path does not already start
with `//`, then appending `?query` and `#fragment` when nonempty. -/
def urlunsplit (scheme netloc path query fragment : List Char) : List Char :=
  let url1 := if netloc != ([] : List Char) ||
      (scheme != ([] : List Char) &&
        (uses_netloc.map String.toList).contains scheme &&
        path.take 2 != ([ '/', '/' ] : List Char)) then
      ('/' :: '/' :: netloc) ++
        (if path != ([] : List Char) && path.headD ' ' != '/' then '/' :: path
         else path)
    else path
  let url2 := if scheme != ([] : List Char) then scheme ++ ':' :: url1 else url1
  let url3 := if query != ([] : List Char) then url2 ++ '?' :: query else url2
  if fragment != ([] : List Char) then url3 ++ '#' :: fragment else url3

/-- Python `path.rstrip("/")`. -/
def rstripSlash (p : List Char) : List Char :=
  (p.reverse.dropWhile (fun c => c == '/')).reverse

/-- `canonicalize_url` (`ml_training/utils.py`, lines 50-62) over character
lists: strip outer whitespace, return `""` when empty, otherwise split the
URL, drop its query and fragment, lowercase the netloc and strip the
path's trailing slashes.  `none` models the propagated "Invalid IPv6 URL"
`ValueError` (the function does not catch it). -/
def canonicalizeList (url : List Char) : Option (List Char) :=
  let trimmed := pyStripList url
  if trimmed.isEmpty then some []
  else (urlsplit trimmed).map (fun parts =>
    urlunsplit parts.scheme (parts.netloc.map Char.toLower)
      (rstripSlash parts.path) [] [])

/-- `canonicalize_url` on `String` (the scheme is lowercased inside
`urlsplit` itself, as in CPython). -/
def canonicalize_url (url : String) : Option String :=
  (canonicalizeList url.toList).map (fun l => String.mk l)

/-- Strings free of whitespace, other C0 control characters and the space
character: every code point exceeds 32.  On such strings `str.strip()`, the
WHATWG left-strip and the unsafe-byte removal are all identities. -/
def noC0Space (s : List Char) : Prop := ∀ c ∈ s, isC0OrSpace c = false

instance (s : List Char) : Decidable (noC0Space s) :=
  List.decidableBAll _ s

/-- One row of a `*_posts_training.csv` table, restricted to the columns
that `_load_posts` inspects. -/
structure PostRow where
  post_url : String
  post_text : String
  deriving DecidableEq

/-- Error message family of `_assert_unique_posts`
(`ml_training/data_loader.py`, lines 111-117). -/
def DUPLICATE_POSTS_ERROR : String := "Duplicate post_url entries detected"

/-- Error raised from inside `urlsplit` for unbalanced brackets. -/
def IPV6_ERROR : String := "Invalid IPv6 URL"

/-- `_load_posts` (`ml_training/data_loader.py`, lines 85-96) for one
company, abstracting the CSV file as its row list: canonicalize every URL
(`df["post_url"].apply(canonicalize_url)`, exceptions propagate), drop rows
with empty canonical URL, drop rows with empty stripped text
(`drop_empty_text`), then `_assert_unique_posts` raises when two remaining
rows share the `(company, post_url_clean)` pair. -/
def load_posts (company : String) (rows : List PostRow) :
    Except String (List (PostRow × String)) :=
  match rows.mapM (fun r => (canonicalize_url r.post_url).map (fun c => (r, c))) with
  | none => Except.error IPV6_ERROR
  | some cleaned =>
    let kept := (cleaned.filter (fun rc => rc.2 != "")).filter
      (fun rc => pyStrip rc.1.post_text != "")
    if (kept.map (fun rc => (company, rc.2))).Nodup then Except.ok kept
    else Except.error DUPLICATE_POSTS_ERROR

-- ===================== concrete instances for the theorems ================

/-- A raw regression row that is already a probability vector: one bucket
receives the whole mass. -/
noncomputable def cexRoleRaw : List ℝ := 1 :: List.replicate 13 0

/-- A fitted role model whose raw pipeline output is `cexRoleRaw` for every
input text. -/
noncomputable def cexRoleModel : RoleCompositionModel :=
  ⟨fun _ => cexRoleRaw, fun _ => rfl⟩

/-- A sample input text. -/
def cexText : String := "team culture update"

/-- A sample evidence n-gram. -/
def cexNgram : String := "overworked"

/-- A fitted pipeline (analyze function) whose risk evidence contains one
top n-gram with weight 2 for every input. -/
def cexAnalyze : String → AnalyzeOut :=
  fun _ => ⟨[], [], [ (cexNgram, 2) ]⟩

/-- A one-feature query vector. -/
noncomputable def cexQuery : List ℝ := [ 1 ]

/-- A training matrix with two identical rows, hence two rows with equal
cosine similarity to any query. -/
noncomputable def cexMatrix : List (List ℝ) := [ [ 1 ], [ 1 ] ]

-- ========================== theorems ====================================

-- ===================== shared lemmas: softmax ============================

theorem foldl_max_mem (xs : List ℝ) (a : ℝ) :
    xs.foldl max a = a ∨ xs.foldl max a ∈ xs := by
  induction xs generalizing a with
  | nil => exact Or.inl rfl
  | cons y ys ih =>
    rcases ih (max a y) with h | h
    · rcases max_choice a y with hm | hm
      · exact Or.inl (h.trans hm)
      · exact Or.inr (by simp [List.foldl, h.trans hm])
    · exact Or.inr (List.mem_cons_of_mem _ h)

theorem rowMax_mem {row : List ℝ} (h : row ≠ []) : rowMax row ∈ row := by
  cases row with
  | nil => exact absurd rfl h
  | cons x xs =>
    rcases foldl_max_mem xs x with h' | h'
    · simp [rowMax, h']
    · exact List.mem_cons_of_mem _ (by simpa [rowMax] using h')

theorem expRow_nonneg (row : List ℝ) :
    ∀ e ∈ row.map (fun v => Real.exp (v - rowMax row)), 0 ≤ e := by
  intro e he
  rcases List.mem_map.1 he with ⟨v, _, rfl⟩
  exact (Real.exp_pos _).le

theorem one_mem_expRow {row : List ℝ} (h : row ≠ []) :
    (1 : ℝ) ∈ row.map (fun v => Real.exp (v - rowMax row)) := by
  refine List.mem_map.2 ⟨rowMax row, rowMax_mem h, ?_⟩
  simp

theorem expRow_sum_ge_one {row : List ℝ} (h : row ≠ []) :
    1 ≤ (row.map (fun v => Real.exp (v - rowMax row))).sum :=
  List.single_le_sum (expRow_nonneg row) _ (one_mem_expRow h)

theorem clippedRowSum_pos (row : List ℝ) : 0 < clippedRowSum row :=
  lt_of_lt_of_le (by norm_num) (le_max_right _ _)

theorem clippedRowSum_eq {row : List ℝ} (h : row ≠ []) :
    clippedRowSum row = (row.map (fun v => Real.exp (v - rowMax row))).sum :=
  max_eq_left (le_trans (by norm_num) (expRow_sum_ge_one h))

theorem sum_map_div (l : List ℝ) (s : ℝ) :
    (l.map (fun e => e / s)).sum = l.sum / s := by
  induction l with
  | nil => simp
  | cons x xs ih => simp [ih, add_div]

theorem softmaxRow_sum {row : List ℝ} (h : row ≠ []) :
    (softmaxRow row).sum = 1 := by
  rw [softmaxRow, sum_map_div, clippedRowSum_eq h]
  exact div_self (ne_of_gt (lt_of_lt_of_le one_pos (expRow_sum_ge_one h)))

theorem softmaxRow_pos (row : List ℝ) : ∀ v ∈ softmaxRow row, 0 < v := by
  intro v hv
  rcases List.mem_map.1 hv with ⟨e, he, rfl⟩
  rcases List.mem_map.1 he with ⟨w, _, rfl⟩
  exact div_pos (Real.exp_pos _) (clippedRowSum_pos row)

theorem softmaxRow_le_one (row : List ℝ) : ∀ v ∈ softmaxRow row, v ≤ 1 := by
  intro v hv
  rcases List.mem_map.1 hv with ⟨e, he, rfl⟩
  rw [div_le_one (clippedRowSum_pos row)]
  exact le_trans
    (List.single_le_sum (expRow_nonneg row) _ he)
    (le_max_left _ _)

theorem softmax_rows_of_no_empty_row {arr : List (List ℝ)}
    (h : ∀ r ∈ arr, r ≠ []) : softmax_rows arr = some (arr.map softmaxRow) := by
  rw [softmax_rows, if_neg]
  intro hc
  rcases List.any_eq_true.1 hc with ⟨r, hr, hempty⟩
  exact h r hr (List.isEmpty_iff.1 hempty)

theorem role_raw_ne_nil (m : RoleCompositionModel) (x : String) :
    m.predict_raw x ≠ [] := by
  intro hnil
  have := m.predict_raw_length x
  rw [hnil] at this
  simp [ROLE_BUCKETS] at this

theorem role_distribution_eq_softmaxRow (m : RoleCompositionModel)
    (x : String) : role_distribution m x = softmaxRow (m.predict_raw x) := by
  rw [role_distribution, if_neg]
  push_neg
  refine ⟨?_, ?_⟩
  · intro v hv
    exact (softmaxRow_pos _ v hv).le
  · rw [softmaxRow_sum (role_raw_ne_nil m x)]
    rw [npIsCloseOneTol]
    norm_num

-- ===================== C9 =================================================

/-- C9 counterexample: `softmax_rows` is not total on every finite real
matrix — on the 1-by-0 matrix `[[]]`, `np.max(arr, axis=1)` reduces a
zero-size axis and raises, modelled as `none`. -/
theorem softmax_rows_errors_on_empty_row :
    softmax_rows [ ([] : List ℝ) ] = none := by
  rw [softmax_rows, if_pos]
  rfl

/-- C9 (amended): on every matrix whose rows are all nonempty,
`softmax_rows` succeeds, the clipped divisor of every row is positive
(clipping at 1e-12 rules out division by zero), and every output entry is
strictly positive and at most 1. -/
theorem softmax_rows_safe (arr : List (List ℝ)) (h : ∀ r ∈ arr, r ≠ []) :
    ∃ out, softmax_rows arr = some out ∧ out.length = arr.length ∧
      (∀ r ∈ arr, 0 < clippedRowSum r) ∧
      ∀ row ∈ out, ∀ v ∈ row, 0 < v ∧ v ≤ 1 := by
  refine ⟨arr.map softmaxRow, softmax_rows_of_no_empty_row h, by simp, ?_, ?_⟩
  · intro r _
    exact clippedRowSum_pos r
  · intro row hrow v hv
    rcases List.mem_map.1 hrow with ⟨r, _, rfl⟩
    exact ⟨softmaxRow_pos r v hv, softmaxRow_le_one r v hv⟩

/-- C9 witness: the amended statement applied to the concrete matrix
`[[0, 1]]`. -/
theorem softmax_rows_safe_witness :
    (∀ r ∈ [ [ (0 : ℝ), 1 ] ], r ≠ []) ∧
    ∃ out, softmax_rows [ [ (0 : ℝ), 1 ] ] = some out ∧
      out.length = ([ [ (0 : ℝ), 1 ] ] : List (List ℝ)).length ∧
      (∀ r ∈ [ [ (0 : ℝ), 1 ] ], 0 < clippedRowSum r) ∧
      ∀ row ∈ out, ∀ v ∈ row, 0 < v ∧ v ≤ 1 :=
  ⟨by simp, softmax_rows_safe _ (by simp)⟩

-- ===================== C1 =================================================

/-- C1: every row of the value returned by a fitted
`RoleCompositionModel.predict` is entrywise nonnegative and sums to 1
(hence to 1 within any floating tolerance such as 1e-6). -/
theorem role_predict_rows_are_distributions (m : RoleCompositionModel)
    (X : List String) :
    ∃ P, m.predict X = some P ∧
      ∀ row ∈ P, (∀ v ∈ row, 0 ≤ v) ∧ |row.sum - 1| ≤ 1 / 10 ^ 6 := by
  refine ⟨(X.map m.predict_raw).map softmaxRow, ?_, ?_⟩
  · rw [RoleCompositionModel.predict]
    refine softmax_rows_of_no_empty_row ?_
    intro r hr
    rcases List.mem_map.1 hr with ⟨x, _, rfl⟩
    exact role_raw_ne_nil m x
  · intro row hrow
    rcases List.mem_map.1 hrow with ⟨r, hr, rfl⟩
    rcases List.mem_map.1 hr with ⟨x, _, rfl⟩
    refine ⟨fun v hv => (softmaxRow_pos _ v hv).le, ?_⟩
    rw [softmaxRow_sum (role_raw_ne_nil m x)]
    norm_num

-- ===================== C2 =================================================

theorem foldl_max_one_replicate_zero :
    ∀ n : ℕ, List.foldl max (1 : ℝ) (List.replicate n 0) = 1 := by
  intro n
  induction n with
  | zero => rfl
  | succ k ih =>
    rw [List.replicate_succ, List.foldl_cons,
      max_eq_left (by norm_num : (0 : ℝ) ≤ 1)]
    exact ih

theorem rowMax_cexRoleRaw : rowMax cexRoleRaw = 1 := by
  rw [cexRoleRaw, rowMax]
  exact foldl_max_one_replicate_zero 13

theorem expRow_cexRoleRaw :
    cexRoleRaw.map (fun v => Real.exp (v - rowMax cexRoleRaw)) =
      1 :: List.replicate 13 (Real.exp (-1)) := by
  rw [rowMax_cexRoleRaw]
  rw [cexRoleRaw, List.map_cons, List.map_replicate]
  norm_num

theorem clippedRowSum_cexRoleRaw :
    clippedRowSum cexRoleRaw = 1 + 13 * Real.exp (-1) := by
  rw [clippedRowSum_eq (by rw [cexRoleRaw]; exact List.cons_ne_nil _ _),
    expRow_cexRoleRaw]
  rw [List.sum_cons, List.sum_replicate, nsmul_eq_mul]
  norm_num

theorem softmaxRow_cexRoleRaw_ne : softmaxRow cexRoleRaw ≠ cexRoleRaw := by
  intro h
  have hhead := congrArg (fun l => l.headD 0) h
  rw [softmaxRow, expRow_cexRoleRaw, clippedRowSum_cexRoleRaw] at hhead
  rw [cexRoleRaw] at hhead
  simp only [List.map_cons, List.headD_cons] at hhead
  have hexp := Real.exp_pos (-1)
  have hs : (0 : ℝ) < 1 + 13 * Real.exp (-1) := by linarith
  rw [div_eq_one_iff_eq (ne_of_gt hs)] at hhead
  linarith

/-- C2 counterexample: a fitted model whose raw outputs are already
nonnegative and sum exactly to 1 does not get them back unchanged — both
`RoleCompositionModel.predict` and the serving facade's
`_role_distribution` return the softmax of the raw outputs instead. -/
theorem role_predict_passthrough_counterexample :
    (∀ v ∈ cexRoleModel.predict_raw cexText, 0 ≤ v) ∧
    (cexRoleModel.predict_raw cexText).sum = 1 ∧
    role_distribution cexRoleModel cexText ≠ cexRoleModel.predict_raw cexText ∧
    RoleCompositionModel.predict cexRoleModel [ cexText ] ≠
      some [ cexRoleModel.predict_raw cexText ] := by
  have hne : softmaxRow cexRoleRaw ≠ cexRoleRaw := softmaxRow_cexRoleRaw_ne
  have hraw : cexRoleModel.predict_raw cexText = cexRoleRaw := rfl
  have hpred : RoleCompositionModel.predict cexRoleModel [ cexText ] =
      some [ softmaxRow cexRoleRaw ] := by
    rw [RoleCompositionModel.predict, List.map_cons, List.map_nil,
      softmax_rows_of_no_empty_row, List.map_cons, List.map_nil, hraw]
    intro r hr
    rw [List.mem_singleton] at hr
    rw [hr]
    exact role_raw_ne_nil cexRoleModel cexText
  refine ⟨?_, ?_, ?_, ?_⟩
  · intro v hv
    rw [hraw, cexRoleRaw, List.mem_cons] at hv
    rcases hv with hv | hv
    · rw [hv]; norm_num
    · rw [List.eq_of_mem_replicate hv]
  · rw [hraw, cexRoleRaw]
    simp [List.sum_replicate]
  · rw [role_distribution_eq_softmaxRow, hraw]
    exact hne
  · rw [hpred, hraw]
    intro hsome
    have h2 := Option.some.inj hsome
    have hh : softmaxRow cexRoleRaw = cexRoleRaw := by
      have h3 := congrArg (fun l => l.headD ([] : List ℝ)) h2
      simpa using h3
    exact hne hh

/-- C2 (amended): prediction always applies the numerically-stable
row-wise softmax to the raw regression outputs — `predict` softmaxes every
row unconditionally, and the serving facade's conditional pass-through
always takes the pass-through branch because it receives `predict`'s
already-normalised output, so the served distribution equals the row-wise
softmax of the raw outputs, never the raw outputs themselves (unless the
softmax happens to fix them). -/
theorem role_prediction_always_softmaxes :
    (∀ (m : RoleCompositionModel) (X : List String),
      m.predict X = some ((X.map m.predict_raw).map softmaxRow)) ∧
    (∀ (m : RoleCompositionModel) (text : String),
      role_distribution m text = softmaxRow (m.predict_raw text)) := by
  constructor
  · intro m X
    rw [RoleCompositionModel.predict]
    refine softmax_rows_of_no_empty_row ?_
    intro r hr
    rcases List.mem_map.1 hr with ⟨x, _, rfl⟩
    exact role_raw_ne_nil m x
  · intro m text
    exact role_distribution_eq_softmaxRow m text

-- ===================== C3 =================================================

/-- C3: for every assignment of the five narrative flags, the rule-based
risk class follows the fixed priority (any of toxic_culture, elitism,
credibility_overclaim, culture_misalignment flagged ⇒ "Harmful"; else
burnout ⇒ "Harmless"; else "Helpful"), lies in the three-class set, and
the headline class of the analyze response is independent of the
statistical risk model's probability output. -/
theorem risk_rule_based_spec (t b e c mis : Bool) :
    (risk_rule_based
        [ ("toxic_culture", t), ("burnout", b), ("elitism", e),
          ("credibility_overclaim", c), ("culture_misalignment", mis) ] =
      if t || e || c || mis then "Harmful"
      else if b then "Harmless" else "Helpful") ∧
    (risk_rule_based
        [ ("toxic_culture", t), ("burnout", b), ("elitism", e),
          ("credibility_overclaim", c), ("culture_misalignment", mis) ] ∈
      [ "Helpful", "Harmless", "Harmful" ]) ∧
    (∀ probs probs' : List (String × ℝ),
      analyze_risk_class
          [ ("toxic_culture", t), ("burnout", b), ("elitism", e),
            ("credibility_overclaim", c), ("culture_misalignment", mis) ] probs =
        analyze_risk_class
          [ ("toxic_culture", t), ("burnout", b), ("elitism", e),
            ("credibility_overclaim", c), ("culture_misalignment", mis) ] probs') := by
  refine ⟨?_, ?_, fun _ _ => rfl⟩
  · cases t <;> cases b <;> cases e <;> cases c <;> cases mis <;> decide
  · cases t <;> cases b <;> cases e <;> cases c <;> cases mis <;> decide

-- ===================== C10 ================================================

theorem lookup_cons_pair {α : Type} (q a : String) (b : α)
    (t : List (String × α)) :
    ((a, b) :: t).lookup q = if q = a then some b else t.lookup q := by
  by_cases h : q = a
  · have hb : (q == a) = true := by simpa using h
    rw [List.lookup_cons, hb, if_pos h]
  · have hb : (q == a) = false := by simpa using h
    rw [List.lookup_cons, hb, if_neg h]

theorem lookup_map_overwrite_ne {α : Type} (d : List (String × α)) (k : String)
    (v : α) (q : String) (h : q ≠ k) :
    (d.map (fun p => if p.1 == k then (p.1, v) else p)).lookup q = d.lookup q := by
  induction d with
  | nil => rfl
  | cons p t ih =>
    obtain ⟨a, b⟩ := p
    rw [List.map_cons]
    by_cases hp : a = k
    · have hstep : (if ((a, b) : String × α).1 == k then ((a, b).1, v)
          else (a, b)) = (a, v) := by simp [hp]
      rw [hstep, lookup_cons_pair, lookup_cons_pair, ih]
      have hqa : ¬ q = a := fun hq => h (hq.trans hp)
      rw [if_neg hqa, if_neg hqa]
    · have hstep : (if ((a, b) : String × α).1 == k then ((a, b).1, v)
          else (a, b)) = (a, b) := by simp [hp]
      rw [hstep, lookup_cons_pair, lookup_cons_pair, ih]

theorem lookup_append_ne {α : Type} (d : List (String × α)) (k : String)
    (v : α) (q : String) (h : q ≠ k) :
    (d ++ [ (k, v) ]).lookup q = d.lookup q := by
  induction d with
  | nil =>
    rw [List.nil_append, lookup_cons_pair, if_neg h]
  | cons p t ih =>
    obtain ⟨a, b⟩ := p
    rw [List.cons_append, lookup_cons_pair, lookup_cons_pair, ih]

theorem lookup_pyDictSet_ne {α : Type} (d : List (String × α)) (k : String)
    (v : α) (q : String) (h : q ≠ k) :
    (pyDictSet d k v).lookup q = d.lookup q := by
  rw [pyDictSet]
  by_cases hc : d.any (fun p => p.1 == k)
  · rw [if_pos hc]
    exact lookup_map_overwrite_ne d k v q h
  · rw [if_neg hc]
    exact lookup_append_ne d k v q h

theorem lookup_map_overwrite_self {α : Type} (d : List (String × α))
    (k : String) (v : α) (hc : d.any (fun p => p.1 == k) = true) :
    (d.map (fun p => if p.1 == k then (p.1, v) else p)).lookup k = some v := by
  induction d with
  | nil => simp at hc
  | cons p t ih =>
    obtain ⟨a, b⟩ := p
    rw [List.map_cons]
    by_cases hp : a = k
    · have hstep : (if ((a, b) : String × α).1 == k then ((a, b).1, v)
          else (a, b)) = (a, v) := by simp [hp]
      rw [hstep, lookup_cons_pair, if_pos hp.symm]
    · have hstep : (if ((a, b) : String × α).1 == k then ((a, b).1, v)
          else (a, b)) = (a, b) := by simp [hp]
      rw [hstep, lookup_cons_pair, if_neg (fun hk => hp hk.symm)]
      refine ih ?_
      rw [List.any_cons] at hc
      have hab : ((a, b).1 == k) = false := by simpa using hp
      simpa [hab] using hc

theorem lookup_append_self {α : Type} (d : List (String × α)) (k : String)
    (v : α) (hc : d.any (fun p => p.1 == k) = false) :
    (d ++ [ (k, v) ]).lookup k = some v := by
  induction d with
  | nil =>
    rw [List.nil_append, lookup_cons_pair, if_pos rfl]
  | cons p t ih =>
    obtain ⟨a, b⟩ := p
    rw [List.any_cons] at hc
    have hab : ¬ a = k := by
      intro hk
      simp [hk] at hc
    rw [List.cons_append, lookup_cons_pair, if_neg (fun hk => hab hk.symm)]
    refine ih ?_
    simpa using (Bool.or_eq_false_iff.1 hc).2

theorem lookup_pyDictSet_self {α : Type} (d : List (String × α)) (k : String)
    (v : α) : (pyDictSet d k v).lookup k = some v := by
  rw [pyDictSet]
  by_cases hc : d.any (fun p => p.1 == k)
  · rw [if_pos hc]
    exact lookup_map_overwrite_self d k v hc
  · rw [if_neg hc]
    exact lookup_append_self d k v
      (by simp only [Bool.not_eq_true] at hc; exact hc)

theorem lookup_foldl_pyDictSet_not_mem {α : Type} (l : List (String × α))
    (q : String) (h : q ∉ l.map Prod.fst) :
    ∀ d, ((l.foldl (fun d cp => pyDictSet d cp.1 cp.2) d).lookup q = d.lookup q) := by
  induction l with
  | nil => intro d; rfl
  | cons cp t ih =>
    intro d
    have hq : q ≠ cp.1 := by
      intro hqc
      exact h (by simp [hqc])
    have ht : q ∉ t.map Prod.fst := by
      intro hmem
      exact h (List.mem_cons_of_mem _ hmem)
    rw [List.foldl_cons, ih ht, lookup_pyDictSet_ne _ _ _ _ hq]

theorem lookup_foldl_pyDictSet_isSome {α : Type} (l : List (String × α))
    (q : String) :
    ∀ d, (d.lookup q).isSome →
      ((l.foldl (fun d cp => pyDictSet d cp.1 cp.2) d).lookup q).isSome := by
  induction l with
  | nil => intro d h; exact h
  | cons cp t ih =>
    intro d h
    rw [List.foldl_cons]
    refine ih _ ?_
    by_cases hq : q = cp.1
    · rw [hq, lookup_pyDictSet_self]
      rfl
    · rw [lookup_pyDictSet_ne _ _ _ _ hq]
      exact h

/-- C10: the probability map of `_risk_model_preds` always holds an entry
for each of "Helpful", "Harmless" and "Harmful", and a class the fitted
model does not emit keeps its initialised probability 0.0. -/
theorem risk_prob_map_covers_expected_classes (model_classes : List String)
    (probs : List ℝ) (lbl : String) (hl : lbl ∈ expected_risk_classes) :
    ∃ p, (risk_prob_map model_classes probs).lookup lbl = some p ∧
      (lbl ∉ model_classes → p = 0) := by
  have hinit : (expected_risk_classes.map (fun l => (l, (0 : ℝ)))).lookup lbl =
      some 0 := by
    simp only [expected_risk_classes, List.mem_cons, List.not_mem_nil,
      or_false] at hl
    rcases hl with rfl | rfl | rfl <;> rfl
  by_cases hmem : lbl ∈ model_classes
  · have hs := lookup_foldl_pyDictSet_isSome (model_classes.zip probs) lbl
      (expected_risk_classes.map (fun l => (l, (0 : ℝ)))) (by rw [hinit]; rfl)
    rcases Option.isSome_iff_exists.1 hs with ⟨p, hp⟩
    exact ⟨p, by rw [risk_prob_map]; exact hp, fun hc => absurd hmem hc⟩
  · have hnm : lbl ∉ (model_classes.zip probs).map Prod.fst := by
      intro hmem'
      rcases List.mem_map.1 hmem' with ⟨⟨a, b⟩, hab, rfl⟩
      exact hmem (List.of_mem_zip hab).1
    refine ⟨0, ?_, fun _ => rfl⟩
    rw [risk_prob_map, lookup_foldl_pyDictSet_not_mem _ _ hnm, hinit]

/-- C10 witness: the theorem applied to a model emitting only "Harmful";
the absent class "Helpful" is present in the map with probability 0. -/
theorem risk_prob_map_covers_expected_classes_witness :
    ( "Helpful" ∈ expected_risk_classes) ∧
    ∃ p, (risk_prob_map [ "Harmful" ] [ (1 : ℝ) ]).lookup "Helpful" = some p ∧
      ( "Helpful" ∉ ([ "Harmful" ] : List String) → p = 0) :=
  ⟨by decide, risk_prob_map_covers_expected_classes _ _ _ (by decide)⟩

-- ===================== C8 =================================================

/-- C8: every narrative probability lies in [0,1]; the serving flag is
exactly `prob ≥ 0.10` (the hardcoded serving threshold, unaffected by the
metadata-configured threshold the predictor loads); the offline prediction
of `evaluate_narrative_model` is exactly `prob ≥ threshold` for its own
threshold parameter, which `train_all.py` sets to 0.5. -/
theorem narrative_prob_flag_consistent (m : NarrativeModel) (text : String)
    (idx : ℕ) (t metaA metaB : ℝ) :
    (0 ≤ narrative_prob m text idx ∧ narrative_prob m text idx ≤ 1) ∧
    (narrative_flag m text idx ↔
      narrative_prob m text idx ≥ serving_narrative_threshold) ∧
    serving_narrative_threshold = 1 / 10 ∧
    (eval_narrative_pred m text t idx ↔ narrative_prob m text idx ≥ t) ∧
    train_all_narrative_threshold = 1 / 2 ∧
    narratives_entry m metaA text idx = narratives_entry m metaB text idx := by
  have hden : (0 : ℝ) < 1 + Real.exp (-(m.decision text idx)) := by
    have := Real.exp_pos (-(m.decision text idx))
    linarith
  refine ⟨⟨?_, ?_⟩, Iff.rfl, rfl, Iff.rfl, rfl, rfl⟩
  · rw [narrative_prob, sigmoid]
    positivity
  · rw [narrative_prob, sigmoid, div_le_one hden]
    have := Real.exp_pos (-(m.decision text idx))
    linarith

-- ===================== C4 =================================================

theorem pyRound_zero (nd : ℕ) : pyRound nd 0 = 0 := by
  rw [pyRound, zero_mul]
  have h0 : roundHalfToEven 0 = 0 := by
    rw [roundHalfToEven, if_pos]
    · exact Int.floor_zero
    · rw [Int.fract_zero]
      norm_num
  rw [h0]
  simp

theorem find?_self_of_nodup_keys (l : List (String × ℚ))
    (h : (l.map Prod.fst).Nodup) :
    ∀ e ∈ l, l.find? (fun p => p.1 == e.1) = some e := by
  induction l with
  | nil => intro e he; cases he
  | cons p t ih =>
    intro e he
    rw [List.map_cons, List.nodup_cons] at h
    rcases List.mem_cons.1 he with rfl | he'
    · exact List.find?_cons_of_pos _ (by simp)
    · have hne : (p.1 == e.1) = false := by
        simp only [beq_eq_false_iff_ne, ne_eq]
        intro hpe
        exact h.1 (hpe ▸ List.mem_map_of_mem Prod.fst he')
      rw [List.find?_cons_of_neg _ (by simp [hne])]
      exact ih h.2 e he'

theorem lookupRolePct_self (l : List (String × ℚ))
    (h : (l.map Prod.fst).Nodup) :
    ∀ e ∈ l, lookupRolePct l e.1 = e.2 := by
  intro e he
  rw [lookupRolePct, find?_self_of_nodup_keys l h e he]
  rfl

theorem pyDictGetD_pyDictSet_self (d : List (String × ℚ)) (k : String)
    (v : ℚ) : pyDictGetD (pyDictSet d k v) k 0 = v := by
  rw [pyDictGetD, lookup_pyDictSet_self]
  rfl

theorem pyDictGetD_pyDictSet_ne (d : List (String × ℚ)) (k : String) (v : ℚ)
    (q : String) (h : q ≠ k) :
    pyDictGetD (pyDictSet d k v) q 0 = pyDictGetD d q 0 := by
  rw [pyDictGetD, lookup_pyDictSet_ne _ _ _ _ h]
  rfl

theorem foldAdd_getD (L : List (String × ℚ)) (k : String) :
    ∀ m, pyDictGetD
        (L.foldl (fun m it => pyDictSet m it.1 (pyDictGetD m it.1 0 + it.2)) m)
        k 0 =
      pyDictGetD m k 0 + ((L.filter (fun it => it.1 == k)).map Prod.snd).sum := by
  induction L with
  | nil => intro m; simp
  | cons it t ih =>
    intro m
    rw [List.foldl_cons, ih]
    by_cases hk : k = it.1
    · subst hk
      rw [pyDictGetD_pyDictSet_self]
      rw [List.filter_cons_of_pos (by simp)]
      rw [List.map_cons, List.sum_cons]
      ring
    · rw [pyDictGetD_pyDictSet_ne _ _ _ _ hk]
      rw [List.filter_cons_of_neg (by simpa using fun h => hk h.symm)]

theorem foldSub_getD (L : List (String × ℚ)) (k : String) :
    ∀ m, pyDictGetD
        (L.foldl (fun m it => pyDictSet m it.1 (pyDictGetD m it.1 0 - it.2)) m)
        k 0 =
      pyDictGetD m k 0 - ((L.filter (fun it => it.1 == k)).map Prod.snd).sum := by
  induction L with
  | nil => intro m; simp
  | cons it t ih =>
    intro m
    rw [List.foldl_cons, ih]
    by_cases hk : k = it.1
    · subst hk
      rw [pyDictGetD_pyDictSet_self]
      rw [List.filter_cons_of_pos (by simp)]
      rw [List.map_cons, List.sum_cons]
      ring
    · rw [pyDictGetD_pyDictSet_ne _ _ _ _ hk]
      rw [List.filter_cons_of_neg (by simpa using fun h => hk h.symm)]

theorem merged_getD_zero (L : List (String × ℚ)) (k : String) :
    pyDictGetD
      (L.foldl (fun m it => pyDictSet m it.1 (pyDictGetD m it.1 0 + it.2))
        (L.foldl (fun m it => pyDictSet m it.1 (pyDictGetD m it.1 0 - it.2)) []))
      k 0 = 0 := by
  rw [foldAdd_getD, foldSub_getD]
  have h0 : pyDictGetD ([] : List (String × ℚ)) k 0 = 0 := rfl
  rw [h0]
  ring

theorem map_fst_pyDictSet_overwrite {α : Type} (d : List (String × α))
    (k : String) (v : α) :
    (d.map (fun p => if p.1 == k then (p.1, v) else p)).map Prod.fst =
      d.map Prod.fst := by
  rw [List.map_map]
  refine List.map_congr_left ?_
  intro p _
  by_cases hp : p.1 = k
  · simp [hp]
  · simp [hp]

theorem pyDictSet_keys_nodup {α : Type} (d : List (String × α)) (k : String)
    (v : α) (h : (d.map Prod.fst).Nodup) :
    ((pyDictSet d k v).map Prod.fst).Nodup := by
  rw [pyDictSet]
  by_cases hc : d.any (fun p => p.1 == k)
  · rw [if_pos hc, map_fst_pyDictSet_overwrite]
    exact h
  · rw [if_neg hc, List.map_append]
    rw [List.nodup_append]
    refine ⟨h, List.nodup_singleton _, ?_⟩
    intro a ha hb
    rcases List.mem_map.1 ha with ⟨p, hp, rfl⟩
    have hb' : p.1 = k := by simpa using hb
    have hc' : (d.any fun p => p.1 == k) = false := by
      simp only [Bool.not_eq_true] at hc
      exact hc
    rw [List.any_eq_false] at hc'
    exact hc' p hp (by simp [hb'])

theorem foldl_pyDictSet_keys_nodup {α : Type}
    (g : List (String × α) → String × α → α) (L : List (String × α)) :
    ∀ m, ((m.map Prod.fst).Nodup) →
      (((L.foldl (fun m it => pyDictSet m it.1 (g m it)) m).map Prod.fst).Nodup) := by
  induction L with
  | nil => intro m h; exact h
  | cons it t ih =>
    intro m h
    rw [List.foldl_cons]
    exact ih _ (pyDictSet_keys_nodup _ _ _ h)

theorem lookup_eq_of_mem_nodup_keys {α : Type} (d : List (String × α))
    (h : (d.map Prod.fst).Nodup) :
    ∀ e ∈ d, d.lookup e.1 = some e.2 := by
  induction d with
  | nil => intro e he; cases he
  | cons p t ih =>
    intro e he
    obtain ⟨a, b⟩ := p
    rw [List.map_cons, List.nodup_cons] at h
    rcases List.mem_cons.1 he with rfl | he'
    · rw [lookup_cons_pair, if_pos rfl]
    · have hne : e.1 ≠ a := by
        intro hea
        have hmem : e.1 ∈ t.map Prod.fst := List.mem_map_of_mem Prod.fst he'
        rw [hea] at hmem
        exact h.1 hmem
      rw [lookup_cons_pair, if_neg hne]
      exact ih h.2 e he'

theorem pyDictSet_ne_nil {α : Type} (d : List (String × α)) (k : String)
    (v : α) : pyDictSet d k v ≠ [] := by
  rw [pyDictSet]
  by_cases hc : d.any (fun p => p.1 == k)
  · rw [if_pos hc]
    cases d with
    | nil => simp at hc
    | cons p t => simp
  · rw [if_neg hc]
    simp

theorem foldl_pyDictSet_ne_nil {α : Type}
    (g : List (String × α) → String × α → α) (L : List (String × α)) :
    ∀ m, m ≠ [] →
      (L.foldl (fun m it => pyDictSet m it.1 (g m it)) m) ≠ [] := by
  induction L with
  | nil => intro m h; exact h
  | cons it t ih =>
    intro m _
    rw [List.foldl_cons]
    exact ih _ (pyDictSet_ne_nil _ _ _)

theorem compare_top_phrases_self_ne_nil (L : List (String × ℚ)) (h : L ≠ []) :
    compare_top_phrases L L ≠ [] := by
  rw [compare_top_phrases]
  cases L with
  | nil => exact absurd rfl h
  | cons it t =>
    have hinner : (List.foldl
        (fun m it => pyDictSet m it.1 (pyDictGetD m it.1 0 - it.2))
        [] (it :: t)) ≠ [] := by
      rw [List.foldl_cons]
      exact foldl_pyDictSet_ne_nil _ t _ (pyDictSet_ne_nil _ _ _)
    have hmerged : (List.foldl
        (fun m it => pyDictSet m it.1 (pyDictGetD m it.1 0 + it.2))
        (List.foldl (fun m it => pyDictSet m it.1 (pyDictGetD m it.1 0 - it.2))
          [] (it :: t)) (it :: t)) ≠ [] :=
      foldl_pyDictSet_ne_nil _ (it :: t) _ hinner
    intro htake
    rcases List.take_eq_nil_iff.1 htake with h10 | hsort
    · cases h10
    · rw [sortByAbsWeightDesc] at hsort
      have hperm := List.perm_insertionSort (fun a b : String × ℚ => |b.2| ≤ |a.2|)
        (List.foldl (fun m it => pyDictSet m it.1 (pyDictGetD m it.1 0 + it.2))
          (List.foldl (fun m it => pyDictSet m it.1 (pyDictGetD m it.1 0 - it.2))
            [] (it :: t)) (it :: t))
      rw [hsort] at hperm
      exact hmerged (List.Perm.eq_nil hperm.symm)

/-- C4 (amended): comparing identical baseline and variant texts yields
all-zero `role_pct_delta` and `risk_prob_delta`, and every entry of
`changed_top_phrases` has weight 0 — but `changed_top_phrases` is the list
of the analysis's top risk phrases with their cancelled (zero) combined
weights, up to 10 of them, so it is empty exactly when the analysis
reports no top risk phrases, not always. -/
theorem compare_identical_texts (analyze : String → AnalyzeOut) (t : String)
    (hkeys : ((analyze t).role_distribution_all.map Prod.fst).Nodup) :
    (∀ e ∈ (compare analyze t t).role_pct_delta, e.2 = 0) ∧
    (∀ e ∈ (compare analyze t t).risk_prob_delta, e.2 = 0) ∧
    (∀ e ∈ (compare analyze t t).changed_top_phrases, e.2 = 0) ∧
    ((compare analyze t t).changed_top_phrases = [] ↔
      (analyze t).risk_top_ngrams = []) := by
  refine ⟨?_, ?_, ?_, ?_⟩
  · intro e he
    rcases List.mem_map.1 he with ⟨r, hr, rfl⟩
    simp only
    rw [lookupRolePct_self _ hkeys r hr, sub_self, pyRound_zero]
  · intro e he
    rcases List.mem_map.1 he with ⟨k, _, rfl⟩
    simp only
    rw [sub_self, pyRound_zero]
  · intro e he
    have hsorted : e ∈ sortByAbsWeightDesc
        (List.foldl (fun m it => pyDictSet m it.1 (pyDictGetD m it.1 0 + it.2))
          (List.foldl (fun m it => pyDictSet m it.1 (pyDictGetD m it.1 0 - it.2))
            [] ((analyze t).risk_top_ngrams)) ((analyze t).risk_top_ngrams)) :=
      List.mem_of_mem_take he
    rw [sortByAbsWeightDesc] at hsorted
    have hmem := (List.perm_insertionSort _ _).mem_iff.1 hsorted
    have hnodup : ((List.foldl
        (fun m it => pyDictSet m it.1 (pyDictGetD m it.1 0 + it.2))
        (List.foldl (fun m it => pyDictSet m it.1 (pyDictGetD m it.1 0 - it.2))
          [] ((analyze t).risk_top_ngrams))
        ((analyze t).risk_top_ngrams)).map Prod.fst).Nodup := by
      refine foldl_pyDictSet_keys_nodup _ _ _ ?_
      refine foldl_pyDictSet_keys_nodup _ _ _ ?_
      exact List.nodup_nil
    have hlook := lookup_eq_of_mem_nodup_keys _ hnodup e hmem
    have hgetd := merged_getD_zero ((analyze t).risk_top_ngrams) e.1
    rw [pyDictGetD, hlook] at hgetd
    exact hgetd
  · constructor
    · intro hnil
      by_contra hne
      exact compare_top_phrases_self_ne_nil _ hne hnil
    · intro hnil
      show compare_top_phrases _ _ = []
      rw [hnil]
      rfl

/-- C4 witness: the amended statement applied to the concrete pipeline
`cexAnalyze` and text `cexText`. -/
theorem compare_identical_texts_witness :
    ((cexAnalyze cexText).role_distribution_all.map Prod.fst).Nodup ∧
    ((∀ e ∈ (compare cexAnalyze cexText cexText).role_pct_delta, e.2 = 0) ∧
     (∀ e ∈ (compare cexAnalyze cexText cexText).risk_prob_delta, e.2 = 0) ∧
     (∀ e ∈ (compare cexAnalyze cexText cexText).changed_top_phrases, e.2 = 0) ∧
     ((compare cexAnalyze cexText cexText).changed_top_phrases = [] ↔
       (cexAnalyze cexText).risk_top_ngrams = [])) :=
  ⟨List.nodup_nil, compare_identical_texts cexAnalyze cexText List.nodup_nil⟩

/-- C4 counterexample: comparing the nonempty text `cexText` with itself
under the fitted pipeline `cexAnalyze` yields a `changed_top_phrases` list
that is not empty — it holds the analysis's top phrase with combined
weight 0 — refuting the claim that the list is always empty for identical
texts. -/
theorem compare_identical_counterexample :
    cexText ≠ "" ∧
    (compare cexAnalyze cexText cexText).changed_top_phrases =
      [ (cexNgram, 0) ] ∧
    (compare cexAnalyze cexText cexText).changed_top_phrases ≠ [] := by
  have hstep1 : (List.foldl
      (fun m it => pyDictSet m it.1 (pyDictGetD m it.1 0 - it.2))
      [] [ (cexNgram, (2 : ℚ)) ]) = [ (cexNgram, (-2 : ℚ)) ] := by
    rw [List.foldl_cons, List.foldl_nil]
    have hget : pyDictGetD ([] : List (String × ℚ)) cexNgram 0 = 0 := rfl
    simp only [hget]
    rw [pyDictSet]
    norm_num
  have hget2 : pyDictGetD [ (cexNgram, (-2 : ℚ)) ] cexNgram 0 = -2 := by
    rw [pyDictGetD, lookup_cons_pair, if_pos rfl]
    rfl
  have hstep2 : (List.foldl
      (fun m it => pyDictSet m it.1 (pyDictGetD m it.1 0 + it.2))
      [ (cexNgram, (-2 : ℚ)) ] [ (cexNgram, (2 : ℚ)) ]) =
      [ (cexNgram, (0 : ℚ)) ] := by
    rw [List.foldl_cons, List.foldl_nil]
    simp only [hget2]
    rw [pyDictSet]
    norm_num
  have hsort : sortByAbsWeightDesc [ (cexNgram, (0 : ℚ)) ] =
      [ (cexNgram, (0 : ℚ)) ] := rfl
  have hmid : (compare cexAnalyze cexText cexText).changed_top_phrases =
      [ (cexNgram, 0) ] := by
    show compare_top_phrases (cexAnalyze cexText).risk_top_ngrams
      (cexAnalyze cexText).risk_top_ngrams = _
    rw [show (cexAnalyze cexText).risk_top_ngrams = [ (cexNgram, (2 : ℚ)) ]
      from rfl]
    rw [compare_top_phrases, hstep1, hstep2, hsort]
    rfl
  refine ⟨by decide, hmid, ?_⟩
  rw [hmid]
  exact List.cons_ne_nil _ _

-- ===================== C5 =================================================

open Classical in
theorem np_argsort_sorted (sims : List ℝ) :
    List.Sorted (argsortRel sims) (np_argsort sims) := by
  rw [np_argsort]
  exact List.sorted_insertionSort _ _

open Classical in
theorem np_argsort_perm (sims : List ℝ) :
    (np_argsort sims).Perm (List.range sims.length) := by
  rw [np_argsort]
  exact List.perm_insertionSort _ _

theorem np_argsort_nodup (sims : List ℝ) : (np_argsort sims).Nodup :=
  ((np_argsort_perm sims).nodup_iff).2 (List.nodup_range _)

theorem np_argsort_mem_iff (sims : List ℝ) (i : ℕ) :
    i ∈ np_argsort sims ↔ i < sims.length := by
  rw [(np_argsort_perm sims).mem_iff, List.mem_range]

theorem np_argsort_spec (sims : List ℝ) :
    npArgsortSpec sims (np_argsort sims) := by
  refine ⟨np_argsort_perm sims, ?_⟩
  refine List.Pairwise.imp ?_ (np_argsort_sorted sims)
  intro i j hij
  rcases hij with h | ⟨h, _⟩
  · exact h.le
  · exact le_of_eq h

/-- C5 (amended): for EVERY index order that `np.argsort` may legally
return for the similarity array (an ascending permutation of the row
indices — its default introsort guarantees no particular tie order),
retrieval returns `(row index, similarity)` pairs ranked in non-increasing
cosine similarity; every returned index is a valid row whose carried score
is its cosine similarity; and the selected rows are a top-k set — no
unselected row has a larger similarity than any selected one.  No
tie-breaking order among equal-similarity rows is claimed, because the
program does not guarantee one. -/
theorem get_similar_posts_ranking (q : List ℝ) (matrix : List (List ℝ))
    (k : ℕ) (idx : List ℕ)
    (hidx : npArgsortSpec (matrix.map (cosine_similarity q)) idx) :
    List.Pairwise (fun a b : ℕ × ℝ => b.2 ≤ a.2)
      (get_similar_posts_with idx q matrix k) ∧
    (∀ a ∈ get_similar_posts_with idx q matrix k, a.1 < matrix.length ∧
      a.2 = (matrix.map (cosine_similarity q)).getD a.1 0) ∧
    (∀ a ∈ get_similar_posts_with idx q matrix k, ∀ j, j < matrix.length →
      j ∉ (get_similar_posts_with idx q matrix k).map Prod.fst →
      (matrix.map (cosine_similarity q)).getD j 0 ≤ a.2) := by
  obtain ⟨hperm, hsorted⟩ := hidx
  have hlen : (matrix.map (cosine_similarity q)).length = matrix.length :=
    List.length_map _ _
  have hmem : ∀ i, i ∈ idx ↔ i < matrix.length := by
    intro i
    rw [hperm.mem_iff, List.mem_range, hlen]
  have hrev : List.Pairwise
      (fun i j => (matrix.map (cosine_similarity q)).getD j 0 ≤
        (matrix.map (cosine_similarity q)).getD i 0) idx.reverse := by
    rw [List.pairwise_reverse]
    exact hsorted
  have htake : List.Pairwise
      (fun i j => (matrix.map (cosine_similarity q)).getD j 0 ≤
        (matrix.map (cosine_similarity q)).getD i 0) (idx.reverse.take k) :=
    List.Pairwise.sublist (List.take_sublist _ _) hrev
  have hmemsel : ∀ i ∈ idx.reverse.take k, i < matrix.length := by
    intro i hi
    rw [← hmem, ← List.mem_reverse]
    exact List.mem_of_mem_take hi
  refine ⟨?_, ?_, ?_⟩
  · rw [get_similar_posts_with, List.pairwise_map]
    exact htake
  · intro a ha
    rw [get_similar_posts_with] at ha
    rcases List.mem_map.1 ha with ⟨i, hi, rfl⟩
    exact ⟨hmemsel i hi, rfl⟩
  · intro a ha j hj hjsel
    rw [get_similar_posts_with] at ha hjsel
    rcases List.mem_map.1 ha with ⟨i, hi, rfl⟩
    have hjsel2 : j ∉ idx.reverse.take k := by
      intro hmem2
      refine hjsel ?_
      rw [List.map_map]
      exact List.mem_map.2 ⟨j, hmem2, rfl⟩
    have hjdrop : j ∈ idx.reverse.drop k := by
      have hjrev : j ∈ idx.reverse := by
        rw [List.mem_reverse, hmem]
        exact hj
      rw [← List.take_append_drop k idx.reverse, List.mem_append] at hjrev
      rcases hjrev with h | h
      · exact absurd h hjsel2
      · exact h
    have hsplit : List.Pairwise
        (fun i j => (matrix.map (cosine_similarity q)).getD j 0 ≤
          (matrix.map (cosine_similarity q)).getD i 0)
        (idx.reverse.take k ++ idx.reverse.drop k) := by
      rw [List.take_append_drop]
      exact hrev
    exact (List.pairwise_append.1 hsplit).2.2 i hi j hjdrop

/-- C5 witness: the theorem applied to the singleton query `[1]`, the
two-row matrix `[[1], [1]]` (equal similarities), `k = 2` and the
ascending index order `[0, 1]`, whose argsort contract is discharged
explicitly (the permutation by reflexivity, the ascending order from the
equal similarities). -/
theorem get_similar_posts_ranking_witness :
    npArgsortSpec (cexMatrix.map (cosine_similarity cexQuery)) [ 0, 1 ] ∧
    (List.Pairwise (fun a b : ℕ × ℝ => b.2 ≤ a.2)
        (get_similar_posts_with [ 0, 1 ] cexQuery cexMatrix 2) ∧
      (∀ a ∈ get_similar_posts_with [ 0, 1 ] cexQuery cexMatrix 2,
        a.1 < cexMatrix.length ∧
        a.2 = (cexMatrix.map (cosine_similarity cexQuery)).getD a.1 0) ∧
      (∀ a ∈ get_similar_posts_with [ 0, 1 ] cexQuery cexMatrix 2,
        ∀ j, j < cexMatrix.length →
        j ∉ (get_similar_posts_with [ 0, 1 ] cexQuery cexMatrix 2).map
          Prod.fst →
        (cexMatrix.map (cosine_similarity cexQuery)).getD j 0 ≤ a.2)) := by
  have hspec : npArgsortSpec (cexMatrix.map (cosine_similarity cexQuery))
      [ 0, 1 ] := by
    constructor
    · exact List.Perm.refl _
    · refine List.Pairwise.cons ?_ (List.pairwise_singleton _ _)
      intro j hj
      rw [List.mem_singleton] at hj
      subst hj
      exact le_of_eq rfl
  exact ⟨hspec, get_similar_posts_ranking cexQuery cexMatrix 2 [ 0, 1 ]
    hspec⟩

open Classical in
/-- C5 counterexample: a query vector and a training matrix with two
identical rows (hence equal cosine similarities).  A 2-element array is
well below numpy's 15-element introsort cutoff, so `np.argsort` here is
deterministically the stable ascending insertion sort and yields `[0, 1]`;
the `[::-1]` reversal then returns row 1 before row 0, refuting the
claimed smaller-index-first tie-breaking. -/
theorem get_similar_posts_tie_counterexample :
    (cexMatrix.map (cosine_similarity cexQuery)).getD 0 0 =
      (cexMatrix.map (cosine_similarity cexQuery)).getD 1 0 ∧
    (get_similar_posts cexQuery cexMatrix 2).map Prod.fst = [ 1, 0 ] ∧
    (get_similar_posts cexQuery cexMatrix 2).map Prod.fst ≠ [ 0, 1 ] := by
  have hr : argsortRel (cexMatrix.map (cosine_similarity cexQuery)) 0 1 :=
    Or.inr ⟨rfl, by norm_num⟩
  have hsort : np_argsort (cexMatrix.map (cosine_similarity cexQuery)) =
      [ 0, 1 ] := by
    rw [np_argsort]
    show List.insertionSort _ [ 0, 1 ] = _
    simp only [List.insertionSort, List.orderedInsert]
    rw [if_pos hr]
  have hmain : (get_similar_posts cexQuery cexMatrix 2).map Prod.fst =
      [ 1, 0 ] := by
    rw [get_similar_posts, hsort]
    rfl
  refine ⟨rfl, hmain, ?_⟩
  rw [hmain]
  decide

-- ===================== C6: character-level lemmas =========================

theorem char_toNat_ofNat_small (n : ℕ) (h : n < 55296) :
    (Char.ofNat n).toNat = n := by
  rw [Char.ofNat, dif_pos (Or.inl h)]
  rfl

theorem char_toLower_eq_self_of_not_upper (c : Char)
    (h : ¬(c.toNat ≥ 65 ∧ c.toNat ≤ 90)) : c.toLower = c := by
  rw [Char.toLower, if_neg h]

theorem char_toLower_toNat (c : Char) (h : c.toNat ≥ 65 ∧ c.toNat ≤ 90) :
    c.toLower.toNat = c.toNat + 32 := by
  rw [Char.toLower, if_pos h]
  exact char_toNat_ofNat_small _ (by omega)

theorem char_toLower_idem (c : Char) : c.toLower.toLower = c.toLower := by
  by_cases h : c.toNat ≥ 65 ∧ c.toNat ≤ 90
  · have ht := char_toLower_toNat c h
    refine char_toLower_eq_self_of_not_upper _ ?_
    omega
  · have h1 : c.toLower = c := char_toLower_eq_self_of_not_upper c h
    rw [h1, h1]

theorem char_toLower_eq_iff (c d : Char)
    (hd : ¬(97 ≤ d.toNat ∧ d.toNat ≤ 122))
    (hd2 : ¬(65 ≤ d.toNat ∧ d.toNat ≤ 90)) : c.toLower = d ↔ c = d := by
  constructor
  · intro h
    by_cases hc : c.toNat ≥ 65 ∧ c.toNat ≤ 90
    · exfalso
      have := char_toLower_toNat c hc
      rw [h] at this
      omega
    · rw [char_toLower_eq_self_of_not_upper c hc] at h
      exact h
  · intro h
    rw [h]
    exact char_toLower_eq_self_of_not_upper d hd2

theorem char_isUpper_iff (c : Char) :
    c.isUpper = true ↔ (65 ≤ c.toNat ∧ c.toNat ≤ 90) := by
  rw [Char.isUpper]
  simp [Char.le_def, UInt32.le_def, BitVec.le_def, Char.toNat, UInt32.toNat]

theorem char_isLower_iff (c : Char) :
    c.isLower = true ↔ (97 ≤ c.toNat ∧ c.toNat ≤ 122) := by
  rw [Char.isLower]
  simp [Char.le_def, UInt32.le_def, BitVec.le_def, Char.toNat, UInt32.toNat]

theorem char_isDigit_iff (c : Char) :
    c.isDigit = true ↔ (48 ≤ c.toNat ∧ c.toNat ≤ 57) := by
  rw [Char.isDigit]
  simp [Char.le_def, UInt32.le_def, BitVec.le_def, Char.toNat, UInt32.toNat]

theorem char_isAlpha_iff (c : Char) :
    c.isAlpha = true ↔
      ((65 ≤ c.toNat ∧ c.toNat ≤ 90) ∨ (97 ≤ c.toNat ∧ c.toNat ≤ 122)) := by
  rw [Char.isAlpha, Bool.or_eq_true, char_isUpper_iff, char_isLower_iff]

theorem char_isAlpha_toLower (c : Char) (h : c.isAlpha = true) :
    c.toLower.isAlpha = true := by
  rw [char_isAlpha_iff] at h ⊢
  by_cases hu : c.toNat ≥ 65 ∧ c.toNat ≤ 90
  · rw [char_toLower_toNat c hu]
    omega
  · rw [char_toLower_eq_self_of_not_upper c hu]
    exact h

theorem char_isSchemeChar_toLower (c : Char) (h : isSchemeChar c = true) :
    isSchemeChar c.toLower = true := by
  by_cases hu : c.toNat ≥ 65 ∧ c.toNat ≤ 90
  · rw [isSchemeChar, Bool.or_eq_true, Bool.or_eq_true, Bool.or_eq_true]
    refine Or.inl (Or.inl (Or.inl ?_))
    rw [Char.isAlphanum, Bool.or_eq_true]
    refine Or.inl ?_
    rw [char_isAlpha_iff, char_toLower_toNat c hu]
    omega
  · rw [char_toLower_eq_self_of_not_upper c hu]
    exact h

theorem char_toLower_noC0 (c : Char) (h : isC0OrSpace c = false) :
    isC0OrSpace c.toLower = false := by
  rw [isC0OrSpace, decide_eq_false_iff_not] at h ⊢
  by_cases hu : c.toNat ≥ 65 ∧ c.toNat ≤ 90
  · rw [char_toLower_toNat c hu]
    omega
  · rw [char_toLower_eq_self_of_not_upper c hu]
    exact h

theorem char_isPyWs_imp_C0 (c : Char) (h : isPyWs c = true) :
    isC0OrSpace c = true := by
  rw [isPyWs] at h
  simp only [Bool.or_eq_true, beq_iff_eq] at h
  rcases h with ((((rfl | rfl) | rfl) | rfl) | rfl) | rfl <;> decide

theorem char_noC0_not_ws (c : Char) (h : isC0OrSpace c = false) :
    isPyWs c = false := by
  by_contra hc
  rw [Bool.not_eq_false] at hc
  rw [char_isPyWs_imp_C0 c hc] at h
  cases h

theorem char_noC0_not_unsafe (c : Char) (h : isC0OrSpace c = false) :
    (!(c == '\t' || c == '\r' || c == '\n')) = true := by
  simp only [Bool.not_eq_true', Bool.or_eq_false_iff, beq_eq_false_iff_ne,
    ne_eq]
  refine ⟨⟨?_, ?_⟩, ?_⟩ <;> intro hc <;> subst hc <;> exact absurd h (by decide)

-- ===================== C6: list-level lemmas ==============================

theorem dropWhile_eq_self_of_none {p : Char → Bool} {l : List Char}
    (h : ∀ c ∈ l, p c = false) : l.dropWhile p = l := by
  cases l with
  | nil => rfl
  | cons c t =>
    rw [List.dropWhile_cons, if_neg]
    rw [h c (List.mem_cons_self c t)]
    exact Bool.false_ne_true

theorem takeWhile_eq_self_of_all {p : Char → Bool} {l : List Char}
    (h : ∀ c ∈ l, p c = true) : l.takeWhile p = l := by
  induction l with
  | nil => rfl
  | cons c t ih =>
    rw [List.takeWhile_cons, if_pos (h c (List.mem_cons_self c t))]
    rw [ih (fun x hx => h x (List.mem_cons_of_mem c hx))]

theorem takeWhile_append_all {p : Char → Bool} (a b : List Char)
    (h : ∀ c ∈ a, p c = true) :
    (a ++ b).takeWhile p = a ++ b.takeWhile p := by
  induction a with
  | nil => rfl
  | cons c t ih =>
    rw [List.cons_append, List.takeWhile_cons,
      if_pos (h c (List.mem_cons_self c t)), List.cons_append,
      ih (fun x hx => h x (List.mem_cons_of_mem c hx))]

theorem dropWhile_append_all {p : Char → Bool} (a b : List Char)
    (h : ∀ c ∈ a, p c = true) :
    (a ++ b).dropWhile p = b.dropWhile p := by
  induction a with
  | nil => rfl
  | cons c t ih =>
    rw [List.cons_append, List.dropWhile_cons,
      if_pos (h c (List.mem_cons_self c t)),
      ih (fun x hx => h x (List.mem_cons_of_mem c hx))]

theorem pyStripList_eq_self {s : List Char} (h : noC0Space s) :
    pyStripList s = s := by
  have hws : ∀ c ∈ s, isPyWs c = false := fun c hc => char_noC0_not_ws c (h c hc)
  rw [pyStripList, dropWhile_eq_self_of_none hws,
    dropWhile_eq_self_of_none (fun c hc => hws c (List.mem_reverse.1 hc)),
    List.reverse_reverse]

theorem removeUnsafeBytes_eq_self {s : List Char} (h : noC0Space s) :
    removeUnsafeBytes s = s := by
  rw [removeUnsafeBytes]
  refine List.filter_eq_self.2 ?_
  intro c hc
  exact char_noC0_not_unsafe c (h c hc)

theorem lstrip_eq_self {s : List Char} (h : noC0Space s) :
    s.dropWhile isC0OrSpace = s :=
  dropWhile_eq_self_of_none h

theorem url1_eq_self {s : List Char} (h : noC0Space s) :
    removeUnsafeBytes (s.dropWhile isC0OrSpace) = s := by
  rw [lstrip_eq_self h, removeUnsafeBytes_eq_self h]

theorem splitAtFirst_recombine (p : Char → Bool) (s : List Char) :
    (splitAtFirst p s).1 ++ (splitAtFirst p s).2 = s :=
  List.takeWhile_append_dropWhile (fun c => !p c) s

theorem splitAtFirst_fst_all (p : Char → Bool) (s : List Char) :
    ∀ c ∈ (splitAtFirst p s).1, p c = false := by
  intro c hc
  have := List.mem_takeWhile_imp hc
  simpa using this

theorem splitAtFirst_snd_head (p : Char → Bool) (s : List Char)
    (h : (splitAtFirst p s).2 ≠ []) :
    p ((splitAtFirst p s).2.headD ' ') = true := by
  induction s with
  | nil => exact absurd rfl h
  | cons c t ih =>
    by_cases hp : p c = true
    · have hdrop : (c :: t).dropWhile (fun c => !p c) = c :: t := by
        rw [List.dropWhile_cons, if_neg]
        rw [hp]
        exact Bool.false_ne_true
      show p (((c :: t).dropWhile (fun c => !p c)).headD ' ') = true
      rw [hdrop]
      exact hp
    · have hp' : (!p c) = true := by
        rw [Bool.not_eq_true] at hp
        rw [hp]
        rfl
      have hdrop : (c :: t).dropWhile (fun c => !p c) =
          t.dropWhile (fun c => !p c) := by
        rw [List.dropWhile_cons, if_pos hp']
      have h2 : (splitAtFirst p t).2 ≠ [] := by
        intro hnil
        refine h ?_
        show (c :: t).dropWhile (fun c => !p c) = []
        rw [hdrop]
        exact hnil
      have := ih h2
      show p (((c :: t).dropWhile (fun c => !p c)).headD ' ') = true
      rw [hdrop]
      exact this

theorem splitAtFirst_eq_of_none (p : Char → Bool) (s : List Char)
    (h : ∀ c ∈ s, p c = false) : splitAtFirst p s = (s, []) := by
  rw [splitAtFirst]
  have hall : ∀ c ∈ s, (!p c) = true := by
    intro c hc
    rw [h c hc]
    rfl
  rw [takeWhile_eq_self_of_all hall]
  rw [show s.dropWhile (fun c => !p c) = (s ++ []).dropWhile (fun c => !p c)
    from by rw [List.append_nil]]
  rw [dropWhile_append_all s [] hall]
  rfl

theorem splitAtFirst_append_right (p : Char → Bool) (a b : List Char)
    (h : (splitAtFirst p a).2 = []) :
    splitAtFirst p (a ++ b) =
      (a ++ (splitAtFirst p b).1, (splitAtFirst p b).2) := by
  have hall : ∀ c ∈ a, (!p c) = true := by
    have := List.dropWhile_eq_nil_iff.1 h
    intro c hc
    simpa using this c hc
  rw [splitAtFirst, takeWhile_append_all a b hall, dropWhile_append_all a b hall]
  rfl

theorem splitAtFirst_append_left (p : Char → Bool) (a b : List Char)
    (h : (splitAtFirst p a).2 ≠ []) :
    splitAtFirst p (a ++ b) =
      ((splitAtFirst p a).1, (splitAtFirst p a).2 ++ b) := by
  induction a with
  | nil => exact absurd rfl h
  | cons c t ih =>
    by_cases hp : p c = true
    · have hp' : (!p c) = false := by
        rw [hp]
        rfl
      show ((c :: t ++ b).takeWhile (fun c => !p c),
        (c :: t ++ b).dropWhile (fun c => !p c)) = _
      rw [List.cons_append, List.takeWhile_cons, if_neg (by rw [hp']; exact Bool.false_ne_true),
        List.dropWhile_cons, if_neg (by rw [hp']; exact Bool.false_ne_true)]
      show (([] : List Char), c :: (t ++ b)) = _
      have h1 : (splitAtFirst p (c :: t)).1 = [] := by
        show (c :: t).takeWhile (fun c => !p c) = []
        rw [List.takeWhile_cons, if_neg (by rw [hp']; exact Bool.false_ne_true)]
      have h2 : (splitAtFirst p (c :: t)).2 = c :: t := by
        show (c :: t).dropWhile (fun c => !p c) = c :: t
        rw [List.dropWhile_cons, if_neg (by rw [hp']; exact Bool.false_ne_true)]
      rw [h1, h2]
      rfl
    · have hp' : (!p c) = true := by
        rw [Bool.not_eq_true] at hp
        rw [hp]
        rfl
      have hsnd : (splitAtFirst p (c :: t)).2 = (splitAtFirst p t).2 := by
        show (c :: t).dropWhile (fun c => !p c) =
          t.dropWhile (fun c => !p c)
        rw [List.dropWhile_cons, if_pos hp']
      have hfst : (splitAtFirst p (c :: t)).1 = c :: (splitAtFirst p t).1 := by
        show (c :: t).takeWhile (fun c => !p c) =
          c :: t.takeWhile (fun c => !p c)
        rw [List.takeWhile_cons, if_pos hp']
      have ht : (splitAtFirst p t).2 ≠ [] := by
        rw [← hsnd]
        exact h
      have hih := ih ht
      have hfst2 : (splitAtFirst p (c :: t ++ b)).1 =
          c :: (splitAtFirst p (t ++ b)).1 := by
        show (c :: (t ++ b)).takeWhile (fun c => !p c) =
          c :: (t ++ b).takeWhile (fun c => !p c)
        rw [List.takeWhile_cons, if_pos hp']
      have hsnd2 : (splitAtFirst p (c :: t ++ b)).2 =
          (splitAtFirst p (t ++ b)).2 := by
        show (c :: (t ++ b)).dropWhile (fun c => !p c) =
          (t ++ b).dropWhile (fun c => !p c)
        rw [List.dropWhile_cons, if_pos hp']
      have hpair : splitAtFirst p (c :: t ++ b) =
          ((splitAtFirst p (c :: t ++ b)).1, (splitAtFirst p (c :: t ++ b)).2) := rfl
      rw [hpair, hfst2, hsnd2, hih, hfst, hsnd]

theorem splitAtFirst_append_delim (p : Char → Bool) (x : List Char) (d : Char)
    (w : List Char) (hd : p d = true) :
    splitAtFirst p (x ++ d :: w) =
      ((splitAtFirst p x).1, (splitAtFirst p x).2 ++ d :: w) := by
  by_cases h2 : (splitAtFirst p x).2 = []
  · rw [splitAtFirst_append_right p x (d :: w) h2, h2]
    have hx : (splitAtFirst p x).1 = x := by
      have := splitAtFirst_recombine p x
      rw [h2, List.append_nil] at this
      exact this
    have hdw1 : (splitAtFirst p (d :: w)).1 = [] := by
      show (d :: w).takeWhile (fun c => !p c) = []
      rw [List.takeWhile_cons, if_neg]
      rw [hd]
      exact Bool.false_ne_true
    have hdw2 : (splitAtFirst p (d :: w)).2 = d :: w := by
      show (d :: w).dropWhile (fun c => !p c) = d :: w
      rw [List.dropWhile_cons, if_neg]
      rw [hd]
      exact Bool.false_ne_true
    rw [hx, hdw1, hdw2, List.append_nil, List.nil_append]
  · rw [splitAtFirst_append_left p x (d :: w) h2]

theorem splitAtFirst_append_of_head (p : Char → Bool) (s b : List Char)
    (hs : ∀ c ∈ s, p c = false) (hb : b = [] ∨ p (b.headD ' ') = true) :
    splitAtFirst p (s ++ b) = (s, b) := by
  rcases hb with rfl | hhead
  · rw [List.append_nil]
    exact splitAtFirst_eq_of_none p s hs
  · cases b with
    | nil => rw [List.append_nil]; exact splitAtFirst_eq_of_none p s hs
    | cons d w =>
      rw [splitAtFirst_append_delim p s d w (by simpa using hhead),
        splitAtFirst_eq_of_none p s hs]
      simp

theorem parsePath_nil : parsePath [] = [] := rfl

theorem parsePath_cons (c : Char) (x : List Char) :
    parsePath (c :: x) =
      if c == '#' then [] else if c == '?' then [] else c :: parsePath x := by
  by_cases h1 : (c == '#') = true
  · rw [if_pos h1, parsePath]
    have hfst : (splitAtFirst (fun c => c == '#') (c :: x)).1 = [] := by
      show (c :: x).takeWhile (fun c => !(c == '#')) = []
      rw [List.takeWhile_cons, if_neg]
      rw [h1]
      exact Bool.false_ne_true
    rw [hfst]
    rfl
  · rw [if_neg h1]
    have h1' : (!(c == '#')) = true := by
      rw [Bool.not_eq_true] at h1
      rw [h1]
      rfl
    have hfst : (splitAtFirst (fun c => c == '#') (c :: x)).1 =
        c :: (splitAtFirst (fun c => c == '#') x).1 := by
      show (c :: x).takeWhile (fun c => !(c == '#')) =
        c :: x.takeWhile (fun c => !(c == '#'))
      rw [List.takeWhile_cons, if_pos h1']
    by_cases h2 : (c == '?') = true
    · rw [if_pos h2, parsePath, hfst]
      show (c :: (splitAtFirst (fun c => c == '#') x).1).takeWhile
        (fun c => !(c == '?')) = []
      rw [List.takeWhile_cons, if_neg]
      rw [h2]
      exact Bool.false_ne_true
    · rw [if_neg h2, parsePath, hfst]
      have h2' : (!(c == '?')) = true := by
        rw [Bool.not_eq_true] at h2
        rw [h2]
        rfl
      show (c :: (splitAtFirst (fun c => c == '#') x).1).takeWhile
        (fun c => !(c == '?')) = c :: parsePath x
      rw [List.takeWhile_cons, if_pos h2']
      rfl

theorem parsePath_append_hash (x f : List Char) :
    parsePath (x ++ '#' :: f) = parsePath x := by
  induction x with
  | nil =>
    rw [List.nil_append, parsePath_cons, if_pos (by rfl)]
    rfl
  | cons c t ih =>
    rw [List.cons_append, parsePath_cons, parsePath_cons, ih]

theorem parsePath_append_question (x q : List Char) :
    parsePath (x ++ '?' :: q) = parsePath x := by
  induction x with
  | nil =>
    rw [List.nil_append, parsePath_cons]
    by_cases h : ('?' == '#') = true
    · rw [if_pos h]
      rfl
    · rw [if_neg h, if_pos (by rfl)]
      rfl
  | cons c t ih =>
    rw [List.cons_append, parsePath_cons, parsePath_cons, ih]

theorem parsePath_append_slash_cases (x : List Char) :
    parsePath (x ++ [ '/' ]) = parsePath x ∨
      parsePath (x ++ [ '/' ]) = parsePath x ++ [ '/' ] := by
  induction x with
  | nil =>
    refine Or.inr ?_
    rw [List.nil_append, parsePath_cons, if_neg (by decide),
      if_neg (by decide), parsePath_nil]
    rfl
  | cons c t ih =>
    rw [List.cons_append, parsePath_cons, parsePath_cons]
    by_cases h1 : (c == '#') = true
    · rw [if_pos h1, if_pos h1]
      exact Or.inl rfl
    · rw [if_neg h1, if_neg h1]
      by_cases h2 : (c == '?') = true
      · rw [if_pos h2, if_pos h2]
        exact Or.inl rfl
      · rw [if_neg h2, if_neg h2]
        rcases ih with ih | ih
        · rw [ih]
          exact Or.inl rfl
        · rw [ih]
          exact Or.inr rfl

theorem parsePath_no_hash_question (x : List Char) :
    ∀ c ∈ parsePath x, (c == '#') = false ∧ (c == '?') = false := by
  induction x with
  | nil => intro c hc; cases hc
  | cons a t ih =>
    intro c hc
    rw [parsePath_cons] at hc
    by_cases h1 : (a == '#') = true
    · rw [if_pos h1] at hc
      cases hc
    · rw [if_neg h1] at hc
      by_cases h2 : (a == '?') = true
      · rw [if_pos h2] at hc
        cases hc
      · rw [if_neg h2] at hc
        rcases List.mem_cons.1 hc with rfl | hc'
        · exact ⟨by simpa using h1, by simpa using h2⟩
        · exact ih c hc'

theorem parsePath_eq_self (x : List Char)
    (h : ∀ c ∈ x, (c == '#') = false ∧ (c == '?') = false) :
    parsePath x = x := by
  induction x with
  | nil => rfl
  | cons a t ih =>
    rw [parsePath_cons, if_neg, if_neg, ih]
    · intro c hc
      exact h c (List.mem_cons_of_mem a hc)
    · rw [(h a (List.mem_cons_self a t)).2]
      exact Bool.false_ne_true
    · rw [(h a (List.mem_cons_self a t)).1]
      exact Bool.false_ne_true

theorem parsePath_exists_append (x : List Char) :
    ∃ t, parsePath x ++ t = x := by
  induction x with
  | nil => exact ⟨[], rfl⟩
  | cons a t ih =>
    rw [parsePath_cons]
    by_cases h1 : (a == '#') = true
    · rw [if_pos h1]
      exact ⟨a :: t, rfl⟩
    · rw [if_neg h1]
      by_cases h2 : (a == '?') = true
      · rw [if_pos h2]
        exact ⟨a :: t, rfl⟩
      · rw [if_neg h2]
        rcases ih with ⟨w, hw⟩
        exact ⟨w, by rw [List.cons_append, hw]⟩

theorem length_dropWhile_le' (p : Char → Bool) (l : List Char) :
    (l.dropWhile p).length ≤ l.length :=
  List.Sublist.length_le (List.dropWhile_sublist p)

theorem dropWhile_head_false (p : Char → Bool) (l : List Char)
    (h : l.dropWhile p = l) (hne : l ≠ []) : p (l.headD ' ') = false := by
  cases l with
  | nil => exact absurd rfl hne
  | cons c t =>
    by_cases hp : p c = true
    · exfalso
      rw [List.dropWhile_cons, if_pos hp] at h
      have := congrArg List.length h
      have hle := length_dropWhile_le' p t
      rw [this] at hle
      simp at hle
    · simpa using hp

theorem dropWhile_idem (p : Char → Bool) (l : List Char) :
    (l.dropWhile p).dropWhile p = l.dropWhile p := by
  induction l with
  | nil => rfl
  | cons a t ih =>
    rw [List.dropWhile_cons]
    by_cases hp : p a = true
    · rw [if_pos hp]
      exact ih
    · rw [if_neg hp]
      rw [List.dropWhile_cons, if_neg hp]

theorem rstripSlash_nil : rstripSlash [] = [] := rfl

theorem rstripSlash_append_slash (y : List Char) :
    rstripSlash (y ++ [ '/' ]) = rstripSlash y := by
  rw [rstripSlash, rstripSlash, List.reverse_append]
  have : ([ '/' ] : List Char).reverse ++ y.reverse = '/' :: y.reverse := rfl
  rw [this, List.dropWhile_cons, if_pos (by rfl)]

theorem rstripSlash_idem (p : List Char) :
    rstripSlash (rstripSlash p) = rstripSlash p := by
  rw [rstripSlash, rstripSlash, List.reverse_reverse, dropWhile_idem]

theorem rstripSlash_exists_append (p : List Char) :
    ∃ t, rstripSlash p ++ t = p := by
  refine ⟨(p.reverse.takeWhile (fun c => c == '/')).reverse, ?_⟩
  rw [rstripSlash, ← List.reverse_append, List.takeWhile_append_dropWhile,
    List.reverse_reverse]

theorem mem_rstripSlash (p : List Char) (c : Char) (h : c ∈ rstripSlash p) :
    c ∈ p := by
  rcases rstripSlash_exists_append p with ⟨t, ht⟩
  rw [← ht]
  exact List.mem_append_left t h

theorem rstripSlash_head (p : List Char) :
    rstripSlash p = [] ∨ (rstripSlash p).headD ' ' = p.headD ' ' := by
  rcases rstripSlash_exists_append p with ⟨t, ht⟩
  cases hh : rstripSlash p with
  | nil => exact Or.inl rfl
  | cons a w =>
    refine Or.inr ?_
    rw [hh] at ht
    rw [← ht]
    rfl

theorem rstripSlash_reverse_fixed (p : List Char) (h : rstripSlash p = p) :
    p.reverse.dropWhile (fun c => c == '/') = p.reverse := by
  have := congrArg List.reverse h
  rw [rstripSlash, List.reverse_reverse] at this
  exact this

theorem rstripSlash_cons_fixed (c : Char) (p : List Char)
    (h : rstripSlash p = p) (hne : p ≠ []) :
    rstripSlash (c :: p) = c :: p := by
  have hdw := rstripSlash_reverse_fixed p h
  have hrevne : p.reverse ≠ [] := by
    intro hnil
    exact hne (by simpa using congrArg List.reverse hnil)
  have hhead := dropWhile_head_false _ _ hdw hrevne
  rw [rstripSlash, List.reverse_cons]
  cases hr : p.reverse with
  | nil => exact absurd hr hrevne
  | cons a w =>
    rw [hr] at hhead
    have hhead' : ¬(a == '/') = true := by
      intro hcon
      rw [show (a :: w).headD ' ' = a from rfl] at hhead
      rw [hcon] at hhead
      cases hhead
    rw [List.cons_append, List.dropWhile_cons, if_neg hhead']
    rw [show a :: (w ++ [ c ]) = (a :: w) ++ [ c ] from rfl, List.reverse_append,
      ← hr, List.reverse_reverse]
    rfl

theorem bne_nil_cons (c : Char) (t : List Char) :
    ((c :: t) != ([] : List Char)) = true := rfl

theorem bne_ne {l : List Char} (h : l ≠ []) : (l != ([] : List Char)) = true := by
  cases l with
  | nil => exact absurd rfl h
  | cons c t => rfl

theorem all_not_colon_of_scheme {s : List Char}
    (hall : s.all isSchemeChar = true) : ∀ c ∈ s, (c == ':') = false := by
  intro c hc
  have hsc := List.all_eq_true.1 hall c hc
  by_contra hcon
  rw [Bool.not_eq_false, beq_iff_eq] at hcon
  subst hcon
  exact absurd hsc (by decide)

theorem schemeSplit_of_valid (s r : List Char) (hne : s ≠ [])
    (hall : s.all isSchemeChar = true) (halpha : (s.headD ' ').isAlpha = true)
    (hlower : s.map Char.toLower = s) :
    schemeSplit (s ++ ':' :: r) = (s, r) := by
  have hsplit : splitAtFirst (fun c => c == ':') (s ++ ':' :: r) =
      (s, ':' :: r) :=
    splitAtFirst_append_of_head _ s (':' :: r)
      (all_not_colon_of_scheme hall) (Or.inr (by rfl))
  have hhead : (s ++ ':' :: r).headD ' ' = s.headD ' ' := by
    cases s with
    | nil => exact absurd rfl hne
    | cons a t => rfl
  rw [schemeSplit, hsplit]
  rw [if_pos]
  · rw [hlower]
    rfl
  · show ((':' :: r != []) && (s != ([] : List Char)) &&
      ((s ++ ':' :: r).headD ' ').isAlpha && s.all isSchemeChar) = true
    rw [bne_nil_cons, bne_ne hne, hhead, halpha, hall]
    rfl

theorem schemeSplit_of_no_colon (u : List Char)
    (h : ∀ c ∈ u, (c == ':') = false) : schemeSplit u = ([], u) := by
  have hsplit := splitAtFirst_eq_of_none (fun c => c == ':') u h
  rw [schemeSplit, hsplit]
  rw [if_neg]
  intro hcon
  rw [show ((u, ([] : List Char)).2 != []) = false from rfl] at hcon
  simp at hcon

theorem schemeSplit_of_head_not_alpha (u : List Char)
    (h : ((u.headD ' ').isAlpha) = false) : schemeSplit u = ([], u) := by
  rw [schemeSplit]
  rw [if_neg]
  intro hcon
  rw [h] at hcon
  simp at hcon

theorem schemeSplit_of_all_false (u : List Char)
    (h : ((splitAtFirst (fun c => c == ':') u).1.all isSchemeChar) = false) :
    schemeSplit u = ([], u) := by
  rw [schemeSplit]
  rw [if_neg]
  intro hcon
  rw [h] at hcon
  simp at hcon

theorem schemeSplit_of_fst_nil (u : List Char)
    (h : (splitAtFirst (fun c => c == ':') u).1 = []) :
    schemeSplit u = ([], u) := by
  rw [schemeSplit]
  rw [if_neg]
  intro hcon
  rw [h] at hcon
  simp at hcon

theorem schemeSplit_fst_spec (u : List Char) :
    (schemeSplit u).1 = [] ∨
      ((schemeSplit u).1 ≠ [] ∧
        (schemeSplit u).1.all isSchemeChar = true ∧
        ((schemeSplit u).1.headD ' ').isAlpha = true ∧
        (schemeSplit u).1.map Char.toLower = (schemeSplit u).1) := by
  rw [schemeSplit]
  by_cases hcond : (((splitAtFirst (fun c => c == ':') u).2 != ([] : List Char)) &&
      ((splitAtFirst (fun c => c == ':') u).1 != ([] : List Char)) &&
      (u.headD ' ').isAlpha &&
      (splitAtFirst (fun c => c == ':') u).1.all isSchemeChar) = true
  · rw [if_pos hcond]
    refine Or.inr ?_
    simp only [Bool.and_eq_true] at hcond
    obtain ⟨⟨⟨h1, h2⟩, h3⟩, h4⟩ := hcond
    have hpre_ne : (splitAtFirst (fun c => c == ':') u).1 ≠ [] := by
      intro hnil
      rw [hnil] at h2
      simp at h2
    have hheads : ((splitAtFirst (fun c => c == ':') u).1.headD ' ') =
        u.headD ' ' := by
      have hrec := splitAtFirst_recombine (fun c => c == ':') u
      cases hp : (splitAtFirst (fun c => c == ':') u).1 with
      | nil => exact absurd hp hpre_ne
      | cons a t =>
        rw [hp] at hrec
        rw [← hrec]
        rfl
    refine ⟨?_, ?_, ?_, ?_⟩
    · intro hnil
      exact hpre_ne (List.map_eq_nil_iff.1 hnil)
    · rw [List.all_map]
      refine List.all_eq_true.2 ?_
      intro c hc
      exact char_isSchemeChar_toLower c (List.all_eq_true.1 h4 c hc)
    · cases hp : (splitAtFirst (fun c => c == ':') u).1 with
      | nil => exact absurd hp hpre_ne
      | cons a t =>
        show (Char.toLower a).isAlpha = true
        refine char_isAlpha_toLower a ?_
        rw [hp] at hheads
        rw [show (a :: t).headD ' ' = a from rfl] at hheads
        rw [← hheads] at h3
        exact h3
    · show List.map Char.toLower
          (List.map Char.toLower (splitAtFirst (fun c => c == ':') u).1) =
        List.map Char.toLower (splitAtFirst (fun c => c == ':') u).1
      rw [List.map_map]
      refine List.map_congr_left ?_
      intro c _
      exact char_toLower_idem c
  · rw [if_neg hcond]
    exact Or.inl rfl

theorem schemeSplit_snd_subset (u : List Char) :
    ∀ c ∈ (schemeSplit u).2, c ∈ u := by
  rw [schemeSplit]
  by_cases hcond : (((splitAtFirst (fun c => c == ':') u).2 != ([] : List Char)) &&
      ((splitAtFirst (fun c => c == ':') u).1 != ([] : List Char)) &&
      (u.headD ' ').isAlpha &&
      (splitAtFirst (fun c => c == ':') u).1.all isSchemeChar) = true
  · rw [if_pos hcond]
    intro c hc
    have h1 : c ∈ (splitAtFirst (fun c => c == ':') u).2 :=
      (List.tail_sublist _).mem hc
    have h2 := (List.dropWhile_sublist (fun c => !(c == ':'))).mem h1
    exact h2
  · rw [if_neg hcond]
    intro c hc
    exact hc

theorem schemeSplit_fst_subset (u : List Char) :
    ∀ c ∈ (schemeSplit u).1, ∃ c0 ∈ u, c = Char.toLower c0 := by
  rw [schemeSplit]
  by_cases hcond : (((splitAtFirst (fun c => c == ':') u).2 != ([] : List Char)) &&
      ((splitAtFirst (fun c => c == ':') u).1 != ([] : List Char)) &&
      (u.headD ' ').isAlpha &&
      (splitAtFirst (fun c => c == ':') u).1.all isSchemeChar) = true
  · rw [if_pos hcond]
    intro c hc
    rcases List.mem_map.1 hc with ⟨c0, hc0, rfl⟩
    refine ⟨c0, ?_, rfl⟩
    exact (List.takeWhile_sublist (fun c => !(c == ':'))).mem hc0
  · rw [if_neg hcond]
    intro c hc
    cases hc

theorem netlocSplit_cons2 (x : List Char) :
    netlocSplit ('/' :: '/' :: x) = splitAtFirst isNetlocDelim x := by
  rw [netlocSplit,
    if_pos (show ((('/' :: '/' :: x).take 2 == ([ '/', '/' ] : List Char)) = true) from rfl)]
  rfl

theorem netlocSplit_not (r : List Char) (h : r.take 2 ≠ [ '/', '/' ]) :
    netlocSplit r = ([], r) := by
  rw [netlocSplit, if_neg]
  intro hcon
  rw [beq_iff_eq] at hcon
  exact h hcon

theorem netlocSplit_fst_all (r : List Char) :
    ∀ c ∈ (netlocSplit r).1, isNetlocDelim c = false := by
  rw [netlocSplit]
  by_cases h : (r.take 2 == ([ '/', '/' ] : List Char)) = true
  · rw [if_pos h]
    exact splitAtFirst_fst_all isNetlocDelim (r.drop 2)
  · rw [if_neg h]
    intro c hc
    cases hc

theorem netlocSplit_fst_subset (r : List Char) :
    ∀ c ∈ (netlocSplit r).1, c ∈ r := by
  rw [netlocSplit]
  by_cases h : (r.take 2 == ([ '/', '/' ] : List Char)) = true
  · rw [if_pos h]
    intro c hc
    have h1 := (List.takeWhile_sublist (fun c => !isNetlocDelim c)).mem hc
    exact (List.drop_sublist 2 r).mem h1
  · rw [if_neg h]
    intro c hc
    cases hc

theorem netlocSplit_snd_subset (r : List Char) :
    ∀ c ∈ (netlocSplit r).2, c ∈ r := by
  rw [netlocSplit]
  by_cases h : (r.take 2 == ([ '/', '/' ] : List Char)) = true
  · rw [if_pos h]
    intro c hc
    have h1 := (List.dropWhile_sublist (fun c => !isNetlocDelim c)).mem hc
    exact (List.drop_sublist 2 r).mem h1
  · rw [if_neg h]
    intro c hc
    exact hc

theorem netlocSplit_snd_shape (r : List Char)
    (h : r.take 2 = [ '/', '/' ]) :
    (netlocSplit r).2 = [] ∨
      isNetlocDelim ((netlocSplit r).2.headD ' ') = true := by
  rw [netlocSplit, if_pos (by rw [beq_iff_eq]; exact h)]
  by_cases h2 : (splitAtFirst isNetlocDelim (r.drop 2)).2 = []
  · exact Or.inl h2
  · exact Or.inr (splitAtFirst_snd_head isNetlocDelim (r.drop 2) h2)

theorem noC0Space_append {a b : List Char} (ha : noC0Space a)
    (hb : noC0Space b) : noC0Space (a ++ b) := by
  intro c hc
  rcases List.mem_append.1 hc with h | h
  · exact ha c h
  · exact hb c h

theorem noC0Space_cons {c : Char} {t : List Char} (hc : isC0OrSpace c = false)
    (ht : noC0Space t) : noC0Space (c :: t) := by
  intro d hd
  rcases List.mem_cons.1 hd with rfl | h
  · exact hc
  · exact ht d h

theorem noC0Space_nil : noC0Space [] := by
  intro c hc
  cases hc

theorem urlunsplit_netloc_val (s n p : List Char) (hn : n ≠ [])
    (hp : p = [] ∨ p.headD ' ' = '/') :
    urlunsplit s n p [] [] =
      (if s = [] then [] else s ++ [ ':' ]) ++ '/' :: '/' :: (n ++ p) := by
  have hpins : (p != ([] : List Char) && p.headD ' ' != '/') = false := by
    rcases hp with rfl | hp
    · rfl
    · rw [hp]
      simp
  rw [urlunsplit, bne_ne hn, Bool.true_or, hpins]
  rw [if_neg (by simp)]
  rw [if_neg (by simp)]
  by_cases hs : s = []
  · subst hs
    rw [if_neg (by simp)]
    rw [if_pos rfl]
    rw [if_neg (by simp)]
    rw [if_pos rfl]
    rfl
  · rw [bne_ne hs]
    rw [if_pos rfl]
    rw [if_pos rfl]
    rw [if_neg (by simp)]
    rw [if_neg hs]
    rw [List.append_assoc]
    rfl

theorem urlunsplit_uses_val (s p : List Char) (hs : s ≠ [])
    (huse : ((uses_netloc.map String.toList).contains s) = true)
    (hp2 : p.take 2 ≠ [ '/', '/' ]) :
    urlunsplit s [] p [] [] =
      s ++ ':' :: '/' :: '/' ::
        (if p ≠ [] ∧ p.headD ' ' ≠ '/' then '/' :: p else p) := by
  have htk : (p.take 2 != ([ '/', '/' ] : List Char)) = true := bne_iff_ne.2 hp2
  rw [urlunsplit, bne_ne hs, huse, htk,
    show (([] : List Char) != []) = false from rfl]
  rw [if_neg (by simp)]
  rw [if_neg (by simp)]
  rw [if_pos rfl]
  rw [if_pos (by simp)]
  by_cases hins : p ≠ [] ∧ p.headD ' ' ≠ '/'
  · have hbool : (p != ([] : List Char) && p.headD ' ' != '/') = true := by
      rw [bne_ne hins.1, bne_iff_ne.2 hins.2]
      rfl
    rw [hbool, if_pos rfl, if_pos hins]
    rfl
  · have hbool : (p != ([] : List Char) && p.headD ' ' != '/') = false := by
      cases hb : (p != ([] : List Char) && p.headD ' ' != '/') with
      | false => rfl
      | true =>
        rw [Bool.and_eq_true, bne_iff_ne, bne_iff_ne] at hb
        exact absurd hb hins
    rw [hbool, if_neg (by simp), if_neg hins]
    rfl

theorem urlunsplit_plain_val (s p : List Char)
    (h : s = [] ∨ ((uses_netloc.map String.toList).contains s) = false) :
    urlunsplit s [] p [] [] = if s = [] then p else s ++ ':' :: p := by
  rw [urlunsplit]
  rw [if_neg (by simp)]
  rw [if_neg (by simp)]
  by_cases hs : s = []
  · subst hs
    rw [if_neg (by simp)]
    rw [if_neg (by simp)]
    rw [if_pos rfl]
  · rcases h with rfl | husef
    · exact absurd rfl hs
    · rw [bne_ne hs, husef]
      rw [if_pos rfl]
      rw [if_neg (by simp)]
      rw [if_neg hs]

theorem splitAtFirst_cons_true (p : Char → Bool) (c : Char) (x : List Char)
    (h : p c = true) : splitAtFirst p (c :: x) = ([], c :: x) := by
  rw [splitAtFirst, List.takeWhile_cons, List.dropWhile_cons, h]
  rfl

theorem schemeSplit_fst_nil_imp (u : List Char)
    (h : (schemeSplit u).1 = []) : schemeSplit u = ([], u) := by
  rcases schemeSplit_fst_spec u with h0 | ⟨hne, _, _, _⟩
  · rw [schemeSplit] at h ⊢
    by_cases hcond : (((splitAtFirst (fun c => c == ':') u).2 != ([] : List Char)) &&
        ((splitAtFirst (fun c => c == ':') u).1 != ([] : List Char)) &&
        (u.headD ' ').isAlpha &&
        (splitAtFirst (fun c => c == ':') u).1.all isSchemeChar) = true
    · rw [if_pos hcond] at h
      simp only [Bool.and_eq_true] at hcond
      obtain ⟨⟨⟨_, h2⟩, _⟩, _⟩ := hcond
      rw [bne_iff_ne] at h2
      exact absurd (List.map_eq_nil_iff.1 h) h2
    · rw [if_neg hcond]
  · exact absurd h hne

theorem char_toNat_inj {c d : Char} (h : c.toNat = d.toNat) : c = d := by
  refine Char.ext ?_
  exact UInt32.ext h

theorem char_isNetlocDelim_iff (c : Char) :
    isNetlocDelim c = true ↔
      (c.toNat = 47 ∨ c.toNat = 63 ∨ c.toNat = 35) := by
  rw [isNetlocDelim]
  simp only [Bool.or_eq_true, beq_iff_eq]
  constructor
  · rintro ((rfl | rfl) | rfl)
    · exact Or.inl rfl
    · exact Or.inr (Or.inl rfl)
    · exact Or.inr (Or.inr rfl)
  · rintro (h | h | h)
    · exact Or.inl (Or.inl (char_toNat_inj (h.trans rfl)))
    · exact Or.inl (Or.inr (char_toNat_inj (h.trans rfl)))
    · exact Or.inr (char_toNat_inj (h.trans rfl))

theorem char_netlocDelim_toLower (c : Char) (h : isNetlocDelim c = false) :
    isNetlocDelim c.toLower = false := by
  by_cases hu : c.toNat ≥ 65 ∧ c.toNat ≤ 90
  · have ht := char_toLower_toNat c hu
    cases hb : isNetlocDelim c.toLower with
    | false => rfl
    | true =>
      rw [char_isNetlocDelim_iff] at hb
      omega
  · rw [char_toLower_eq_self_of_not_upper c hu]
    exact h

theorem map_toLower_idem (l : List Char) :
    (l.map Char.toLower).map Char.toLower = l.map Char.toLower := by
  rw [List.map_map]
  exact List.map_congr_left fun c _ => char_toLower_idem c

theorem urlsplit_eq (url : List Char) (h : noC0Space url) :
    urlsplit url =
      (if ((netlocSplit (schemeSplit url).2).1.contains '[' !=
          (netlocSplit (schemeSplit url).2).1.contains ']') = true then none
       else some ⟨(schemeSplit url).1, (netlocSplit (schemeSplit url).2).1,
         parsePath (netlocSplit (schemeSplit url).2).2,
         (splitAtFirst (fun c => c == '?')
           ((splitAtFirst (fun c => c == '#')
             (netlocSplit (schemeSplit url).2).2).1)).2.tail,
         (splitAtFirst (fun c => c == '#')
           (netlocSplit (schemeSplit url).2).2).2.tail⟩) := by
  rw [urlsplit, url1_eq_self h]

theorem canonicalizeList_eq (url : List Char) (h : noC0Space url)
    (hne : url ≠ []) :
    canonicalizeList url = (urlsplit url).map (fun parts =>
      urlunsplit parts.scheme (parts.netloc.map Char.toLower)
        (rstripSlash parts.path) [] []) := by
  rw [canonicalizeList, pyStripList_eq_self h]
  rw [if_neg]
  intro hcon
  exact hne (by simpa using hcon)

theorem schemeSplit_reject_of_chop (c t : List Char)
    (hrej : schemeSplit (c ++ t) = ([], c ++ t)) :
    schemeSplit c = ([], c) := by
  by_cases hcol : (splitAtFirst (fun x => x == ':') c).2 = []
  · refine schemeSplit_of_no_colon c ?_
    have hrc := splitAtFirst_recombine (fun x => x == ':') c
    rw [hcol, List.append_nil] at hrc
    intro d hd
    rw [← hrc] at hd
    exact splitAtFirst_fst_all _ c d hd
  · have hhead := splitAtFirst_snd_head (fun x => x == ':') c hcol
    cases hsnd : (splitAtFirst (fun x => x == ':') c).2 with
    | nil => exact absurd hsnd hcol
    | cons d w =>
      have hd : d = ':' := by
        rw [hsnd] at hhead
        exact beq_iff_eq.1 hhead
      subst hd
      have hcne : c ≠ [] := by
        intro hc0
        rw [hc0] at hsnd
        cases hsnd
      have hrc := splitAtFirst_recombine (fun x => x == ':') c
      rw [hsnd] at hrc
      have hafree := splitAtFirst_fst_all (fun x => x == ':') c
      have hu : splitAtFirst (fun x => x == ':') (c ++ t) =
          ((splitAtFirst (fun x => x == ':') c).1, ':' :: (w ++ t)) := by
        conv_lhs => rw [← hrc]
        rw [List.append_assoc]
        refine splitAtFirst_append_of_head _ _ _ hafree (Or.inr ?_)
        rfl
      by_cases ha : (splitAtFirst (fun x => x == ':') c).1 = []
      · exact schemeSplit_of_fst_nil c ha
      · have hheadc : (c ++ t).headD ' ' = c.headD ' ' := by
          cases hc0 : c with
          | nil => exact absurd hc0 hcne
          | cons e y => rfl
        by_cases halpha : ((c ++ t).headD ' ').isAlpha = true
        · by_cases hall :
              (splitAtFirst (fun x => x == ':') c).1.all isSchemeChar = true
          · exfalso
            have hval : schemeSplit (c ++ t) =
                ((splitAtFirst (fun x => x == ':') c).1.map Char.toLower,
                  w ++ t) := by
              rw [schemeSplit, hu]
              rw [if_pos (by
                rw [show ((':' :: (w ++ t) :
                    List Char) != []) = true from rfl,
                  bne_ne ha, halpha, hall]
                rfl)]
              rfl
            rw [hrej] at hval
            have hmap := congrArg Prod.fst hval
            exact ha (List.map_eq_nil_iff.1 hmap.symm)
          · refine schemeSplit_of_all_false c ?_
            cases hb : (splitAtFirst (fun x => x == ':') c).1.all isSchemeChar
              with
            | false => rfl
            | true => exact absurd hb hall
        · refine schemeSplit_of_head_not_alpha c ?_
          rw [← hheadc]
          cases hb : ((c ++ t).headD ' ').isAlpha with
          | false => rfl
          | true => exact absurd hb halpha

theorem urlsplit_some_spec (u : List Char) (r : SplitResult)
    (hu : noC0Space u) (h : urlsplit u = some r) :
    r.scheme = (schemeSplit u).1 ∧
      r.netloc = (netlocSplit (schemeSplit u).2).1 ∧
      r.path = parsePath (netlocSplit (schemeSplit u).2).2 ∧
      (r.netloc.contains '[') = (r.netloc.contains ']') := by
  rw [urlsplit_eq u hu] at h
  by_cases hb : ((netlocSplit (schemeSplit u).2).1.contains '[' !=
      (netlocSplit (schemeSplit u).2).1.contains ']') = true
  · rw [if_pos hb] at h
    cases h
  · rw [if_neg hb] at h
    have hr := Option.some.inj h
    have hbr : (netlocSplit (schemeSplit u).2).1.contains '[' =
        (netlocSplit (schemeSplit u).2).1.contains ']' := by
      cases hx : ((netlocSplit (schemeSplit u).2).1.contains '[' !=
          (netlocSplit (schemeSplit u).2).1.contains ']') with
      | false => exact bne_eq_false_iff_eq.1 hx
      | true => exact absurd hx hb
    rw [← hr]
    exact ⟨rfl, rfl, rfl, hbr⟩

theorem urlsplit_of_parts (u s2 r n2 p2 : List Char)
    (hC0 : noC0Space u)
    (hsch : schemeSplit u = (s2, r))
    (hnl : netlocSplit r = (n2, p2))
    (hbr : (n2.contains '[') = (n2.contains ']'))
    (hp1 : ∀ c ∈ p2, (c == '#') = false ∧ (c == '?') = false) :
    urlsplit u = some ⟨s2, n2, p2, [], []⟩ := by
  have hq1 : splitAtFirst (fun c => c == '#') p2 = (p2, []) :=
    splitAtFirst_eq_of_none _ _ (fun c hc => (hp1 c hc).1)
  have hq2 : splitAtFirst (fun c => c == '?') p2 = (p2, []) :=
    splitAtFirst_eq_of_none _ _ (fun c hc => (hp1 c hc).2)
  have hpp : parsePath p2 = p2 := parsePath_eq_self p2 hp1
  rw [urlsplit_eq u hC0, hsch, hnl]
  rw [if_neg (show ¬((n2.contains '[') != (n2.contains ']')) = true by
    rw [hbr, bne_self_eq_false]
    simp)]
  rw [hpp, hq1, hq2]
  rfl

theorem canonicalizeList_unsplit_fixed
    (s n p : List Char)
    (hsC0 : noC0Space s) (hnC0 : noC0Space n) (hpC0 : noC0Space p)
    (hsinv : s = [] ∨ (s.all isSchemeChar = true ∧
      (s.headD ' ').isAlpha = true ∧ s.map Char.toLower = s))
    (hn1 : ∀ c ∈ n, isNetlocDelim c = false)
    (hn2 : n.contains '[' = n.contains ']')
    (hn3 : n.map Char.toLower = n)
    (hp1 : ∀ c ∈ p, (c == '#') = false ∧ (c == '?') = false)
    (hp2 : rstripSlash p = p)
    (hp3 : n ≠ [] → p = [] ∨ p.headD ' ' = '/')
    (hp4 : s = [] → n = [] → schemeSplit p = ([], p))
    (hsafe : n = [] → p.take 2 ≠ [ '/', '/' ]) :
    canonicalizeList (urlunsplit s n p [] []) =
      some (urlunsplit s n p [] []) := by
  by_cases hn : n = []
  · subst hn
    by_cases huse : s ≠ [] ∧ ((uses_netloc.map String.toList).contains s) = true
    · obtain ⟨hs0, hcont⟩ := huse
      rcases hsinv with rfl | ⟨hall, halpha, hlower⟩
      · exact absurd rfl hs0
      have hval := urlunsplit_uses_val s p hs0 hcont (hsafe rfl)
      have hcne : ∀ x : List Char, (s ++ ':' :: x) ≠ [] := by
        intro x
        cases s with
        | nil => exact absurd rfl hs0
        | cons a t => exact List.cons_ne_nil _ _
      by_cases hins : p ≠ [] ∧ p.headD ' ' ≠ '/'
      · rw [if_pos hins] at hval
        have hC0c : noC0Space (s ++ ':' :: ('/' :: '/' :: ('/' :: p))) :=
          noC0Space_append hsC0 (noC0Space_cons (by decide)
            (noC0Space_cons (by decide) (noC0Space_cons (by decide)
              (noC0Space_cons (by decide) hpC0))))
        have hsch := schemeSplit_of_valid s ('/' :: '/' :: ('/' :: p))
          hs0 hall halpha hlower
        have hnl : netlocSplit ('/' :: '/' :: ('/' :: p)) = ([], '/' :: p) := by
          rw [netlocSplit_cons2]
          exact splitAtFirst_cons_true _ _ _ (by decide)
        have hp1' : ∀ c ∈ ('/' :: p),
            (c == '#') = false ∧ (c == '?') = false := by
          intro c hc
          rcases List.mem_cons.1 hc with rfl | hcm
          · exact ⟨by decide, by decide⟩
          · exact hp1 c hcm
        have hres : urlsplit (s ++ ':' :: ('/' :: '/' :: ('/' :: p))) =
            some ⟨s, [], '/' :: p, [], []⟩ :=
          urlsplit_of_parts _ _ _ _ _ hC0c hsch hnl rfl hp1'
        have hrs : rstripSlash ('/' :: p) = '/' :: p :=
          rstripSlash_cons_fixed '/' p hp2 hins.1
        have htk2 : ('/' :: p).take 2 ≠ [ '/', '/' ] := by
          cases p with
          | nil => exact absurd rfl hins.1
          | cons a x =>
            intro hcon
            injection hcon with h1 hrest
            injection hrest with h3 h4
            exact hins.2 h3
        rw [hval, canonicalizeList_eq _ hC0c (hcne _), hres]
        show some (urlunsplit s []
            (rstripSlash ('/' :: p)) [] []) =
          some (s ++ ':' :: ('/' :: '/' :: ('/' :: p)))
        rw [hrs]
        have hreb := urlunsplit_uses_val s ('/' :: p) hs0 hcont htk2
        rw [hreb, if_neg (show ¬(('/' :: p) ≠ [] ∧ ('/' :: p).headD ' ' ≠ '/')
          from fun hcon => hcon.2 rfl)]
      · have hsplitp : splitAtFirst isNetlocDelim p = ([], p) := by
          cases p with
          | nil => rfl
          | cons a x =>
            have ha : a = '/' := by
              rcases not_and_or.1 hins with h | h
              · exact absurd (List.cons_ne_nil a x) h
              · exact not_not.1 h
            subst ha
            exact splitAtFirst_cons_true _ _ _ (by decide)
        rw [if_neg hins] at hval
        have hC0c : noC0Space (s ++ ':' :: ('/' :: '/' :: p)) :=
          noC0Space_append hsC0 (noC0Space_cons (by decide)
            (noC0Space_cons (by decide) (noC0Space_cons (by decide) hpC0)))
        have hsch := schemeSplit_of_valid s ('/' :: '/' :: p)
          hs0 hall halpha hlower
        have hnl2 : netlocSplit ('/' :: '/' :: p) = ([], p) := by
          rw [netlocSplit_cons2, hsplitp]
        have hres : urlsplit (s ++ ':' :: ('/' :: '/' :: p)) =
            some ⟨s, [], p, [], []⟩ :=
          urlsplit_of_parts _ _ _ _ _ hC0c hsch hnl2 rfl hp1
        rw [hval, canonicalizeList_eq _ hC0c (hcne _), hres]
        show some (urlunsplit s []
            (rstripSlash p) [] []) =
          some (s ++ ':' :: ('/' :: '/' :: p))
        rw [hp2]
        have hreb := urlunsplit_uses_val s p hs0 hcont (hsafe rfl)
        rw [hreb, if_neg hins]
    · have hz : s = [] ∨
          ((uses_netloc.map String.toList).contains s) = false := by
        rcases not_and_or.1 huse with h | h
        · exact Or.inl (not_not.1 h)
        · cases hb : ((uses_netloc.map String.toList).contains s) with
          | false => exact Or.inr rfl
          | true => exact absurd hb h
      have hval := urlunsplit_plain_val s p hz
      by_cases hs0 : s = []
      · subst hs0
        rw [if_pos rfl] at hval
        by_cases hp0 : p = []
        · subst hp0
          rw [hval]
          rfl
        · have hres : urlsplit p = some ⟨[], [], p, [], []⟩ :=
            urlsplit_of_parts _ _ _ _ _ hpC0 (hp4 rfl rfl)
              (netlocSplit_not p (hsafe rfl)) rfl hp1
          rw [hval, canonicalizeList_eq _ hpC0 hp0, hres]
          show some (urlunsplit [] []
              (rstripSlash p) [] []) = some p
          rw [hp2]
          have hreb := urlunsplit_plain_val [] p (Or.inl rfl)
          rw [hreb, if_pos rfl]
      · rcases hsinv with rfl | ⟨hall, halpha, hlower⟩
        · exact absurd rfl hs0
        rcases hz with rfl | hzf
        · exact absurd rfl hs0
        rw [if_neg hs0] at hval
        have hC0c : noC0Space (s ++ ':' :: p) :=
          noC0Space_append hsC0 (noC0Space_cons (by decide) hpC0)
        have hsch := schemeSplit_of_valid s p hs0 hall halpha hlower
        have hres : urlsplit (s ++ ':' :: p) = some ⟨s, [], p, [], []⟩ :=
          urlsplit_of_parts _ _ _ _ _ hC0c hsch
            (netlocSplit_not p (hsafe rfl)) rfl hp1
        have hcne : (s ++ ':' :: p) ≠ [] := by
          cases s with
          | nil => exact absurd rfl hs0
          | cons a t => exact List.cons_ne_nil _ _
        rw [hval, canonicalizeList_eq _ hC0c hcne, hres]
        show some (urlunsplit s []
            (rstripSlash p) [] []) =
          some (s ++ ':' :: p)
        rw [hp2]
        have hreb := urlunsplit_plain_val s p (Or.inr hzf)
        rw [hreb, if_neg hs0]
  · have hp' := hp3 hn
    have hpdelim : p = [] ∨ isNetlocDelim (p.headD ' ') = true := by
      rcases hp' with rfl | hh
      · exact Or.inl rfl
      · exact Or.inr (by rw [hh]; rfl)
    have hval := urlunsplit_netloc_val s n p hn hp'
    have hnl : netlocSplit ('/' :: '/' :: (n ++ p)) = (n, p) := by
      rw [netlocSplit_cons2]
      exact splitAtFirst_append_of_head _ _ _ hn1 hpdelim
    by_cases hs0 : s = []
    · subst hs0
      have hval2 : urlunsplit [] n p [] [] = '/' :: '/' :: (n ++ p) := by
        rw [hval, if_pos rfl, List.nil_append]
      have hC0c : noC0Space ('/' :: '/' :: (n ++ p)) :=
        noC0Space_cons (by decide) (noC0Space_cons (by decide)
          (noC0Space_append hnC0 hpC0))
      have hsch : schemeSplit ('/' :: '/' :: (n ++ p)) =
          ([], '/' :: '/' :: (n ++ p)) :=
        schemeSplit_of_head_not_alpha _ rfl
      have hres : urlsplit ('/' :: '/' :: (n ++ p)) =
          some ⟨[], n, p, [], []⟩ :=
        urlsplit_of_parts _ _ _ _ _ hC0c hsch hnl hn2 hp1
      rw [hval2, canonicalizeList_eq _ hC0c (List.cons_ne_nil _ _), hres]
      show some (urlunsplit [] (List.map Char.toLower n)
          (rstripSlash p) [] []) =
        some ('/' :: '/' :: (n ++ p))
      rw [hn3, hp2, ← hval2]
    · rcases hsinv with rfl | ⟨hall, halpha, hlower⟩
      · exact absurd rfl hs0
      have hval2 : urlunsplit s n p [] [] =
          s ++ ':' :: ('/' :: '/' :: (n ++ p)) := by
        rw [hval, if_neg hs0, List.append_assoc]
        rfl
      have hC0c : noC0Space (s ++ ':' :: ('/' :: '/' :: (n ++ p))) :=
        noC0Space_append hsC0 (noC0Space_cons (by decide)
          (noC0Space_cons (by decide) (noC0Space_cons (by decide)
            (noC0Space_append hnC0 hpC0))))
      have hsch := schemeSplit_of_valid s ('/' :: '/' :: (n ++ p))
        hs0 hall halpha hlower
      have hres : urlsplit (s ++ ':' :: ('/' :: '/' :: (n ++ p))) =
          some ⟨s, n, p, [], []⟩ :=
        urlsplit_of_parts _ _ _ _ _ hC0c hsch hnl hn2 hp1
      have hcne : (s ++ ':' :: ('/' :: '/' :: (n ++ p))) ≠ [] := by
        cases s with
        | nil => exact absurd rfl hs0
        | cons a t => exact List.cons_ne_nil _ _
      rw [hval2, canonicalizeList_eq _ hC0c hcne, hres]
      show some (urlunsplit s (List.map Char.toLower n)
          (rstripSlash p) [] []) =
        some (s ++ ':' :: ('/' :: '/' :: (n ++ p)))
      rw [hn3, hp2, ← hval2]

theorem parsePath_subset (x : List Char) : ∀ c ∈ parsePath x, c ∈ x := by
  intro c hc
  rcases parsePath_exists_append x with ⟨t, ht⟩
  rw [← ht]
  exact List.mem_append_left t hc

theorem contains_map_toLower (l : List Char) (d : Char)
    (hd : ¬(97 ≤ d.toNat ∧ d.toNat ≤ 122))
    (hd2 : ¬(65 ≤ d.toNat ∧ d.toNat ≤ 90)) :
    (l.map Char.toLower).contains d = l.contains d := by
  induction l with
  | nil => rfl
  | cons a t ih =>
    rw [List.map_cons, List.contains_cons, List.contains_cons, ih]
    have hiff : d = a.toLower ↔ d = a := by
      constructor
      · intro h
        exact ((char_toLower_eq_iff a d hd hd2).1 h.symm).symm
      · intro h
        exact ((char_toLower_eq_iff a d hd hd2).2 h.symm).symm
    cases hq : (d == a) with
    | true =>
      rw [beq_iff_eq] at hq
      rw [show (d == a.toLower) = true from beq_iff_eq.2 (hiff.2 hq)]
    | false =>
      cases hq2 : (d == a.toLower) with
      | false => rfl
      | true =>
        rw [beq_iff_eq] at hq2
        rw [beq_iff_eq.2 (hiff.1 hq2)] at hq
        cases hq

theorem netlocSplit_fst_ne_imp (R : List Char)
    (h : (netlocSplit R).1 ≠ []) : R.take 2 = [ '/', '/' ] := by
  by_contra hcon
  rw [netlocSplit_not R hcon] at h
  exact h rfl

theorem take2_eq_slash2 (R : List Char) (h : R.take 2 = [ '/', '/' ]) :
    ∃ x, R = '/' :: '/' :: x := by
  cases R with
  | nil =>
    have h' : ([] : List Char) = [ '/', '/' ] := h
    exact List.noConfusion h'
  | cons a y =>
    cases y with
    | nil =>
      have h' : [ a ] = [ '/', '/' ] := h
      injection h' with h1 h2
      exact List.noConfusion h2
    | cons b z =>
      have h3 : a :: b :: List.take 0 z = [ '/', '/' ] := h
      injection h3 with ha hrest
      injection hrest with hb _
      subst ha
      subst hb
      exact ⟨z, rfl⟩

theorem path_shape_of_netloc_branch (R : List Char)
    (htk : R.take 2 = [ '/', '/' ]) :
    rstripSlash (parsePath (netlocSplit R).2) = [] ∨
      (rstripSlash (parsePath (netlocSplit R).2)).headD ' ' = '/' := by
  rcases netlocSplit_snd_shape R htk with h0 | hdel
  · rw [h0, parsePath_nil, rstripSlash_nil]
    exact Or.inl rfl
  · have hne2 : (netlocSplit R).2 ≠ [] := by
      intro h0
      rw [h0] at hdel
      exact absurd hdel (by decide)
    cases hsn : (netlocSplit R).2 with
    | nil => exact absurd hsn hne2
    | cons d x =>
      rw [hsn] at hdel
      rw [List.headD_cons] at hdel
      rw [parsePath_cons]
      rw [isNetlocDelim] at hdel
      simp only [Bool.or_eq_true, beq_iff_eq] at hdel
      rcases hdel with (rfl | rfl) | rfl
      · rw [if_neg (by decide), if_neg (by decide)]
        rcases rstripSlash_head ('/' :: parsePath x) with h | h
        · exact Or.inl h
        · exact Or.inr (h.trans rfl)
      · rw [if_neg (by decide), if_pos (by decide), rstripSlash_nil]
        exact Or.inl rfl
      · rw [if_pos (by decide), rstripSlash_nil]
        exact Or.inl rfl

theorem canonicalizeList_idem (u v : List Char) (hu : noC0Space u)
    (hsafe : ∀ r, urlsplit u = some r →
      (r.netloc ≠ [] ∨ (rstripSlash r.path).take 2 ≠ [ '/', '/' ]))
    (hv : canonicalizeList u = some v) :
    canonicalizeList v = some v := by
  by_cases hu0 : u = []
  · subst hu0
    have h0 : canonicalizeList ([] : List Char) = some [] := rfl
    rw [h0] at hv
    obtain rfl := Option.some.inj hv
    exact h0
  · rw [canonicalizeList_eq u hu hu0] at hv
    cases hrr : urlsplit u with
    | none =>
      rw [hrr] at hv
      cases hv
    | some r =>
      rw [hrr] at hv
      simp only [Option.map_some'] at hv
      obtain rfl := Option.some.inj hv
      obtain ⟨hsc, hnl, hpa, hbr⟩ := urlsplit_some_spec u r hu hrr
      refine canonicalizeList_unsplit_fixed r.scheme
        (r.netloc.map Char.toLower) (rstripSlash r.path)
        ?_ ?_ ?_ ?_ ?_ ?_ ?_ ?_ ?_ ?_ ?_ ?_
      · rw [hsc]
        intro c hc
        rcases schemeSplit_fst_subset u c hc with ⟨c0, hc0, rfl⟩
        exact char_toLower_noC0 c0 (hu c0 hc0)
      · intro c hc
        rcases List.mem_map.1 hc with ⟨c0, hc0, rfl⟩
        refine char_toLower_noC0 c0 ?_
        rw [hnl] at hc0
        have h1 := netlocSplit_fst_subset _ _ hc0
        have h2 := schemeSplit_snd_subset u _ h1
        exact hu c0 h2
      · intro c hc
        have h1 := mem_rstripSlash _ _ hc
        rw [hpa] at h1
        have h2 := parsePath_subset _ _ h1
        have h3 := netlocSplit_snd_subset _ _ h2
        have h4 := schemeSplit_snd_subset u _ h3
        exact hu c h4
      · rw [hsc]
        rcases schemeSplit_fst_spec u with h | ⟨hne, hall, halpha, hlower⟩
        · exact Or.inl h
        · exact Or.inr ⟨hall, halpha, hlower⟩
      · intro c hc
        rcases List.mem_map.1 hc with ⟨c0, hc0, rfl⟩
        refine char_netlocDelim_toLower c0 ?_
        rw [hnl] at hc0
        exact netlocSplit_fst_all _ c0 hc0
      · rw [contains_map_toLower _ _ (by decide) (by decide),
          contains_map_toLower _ _ (by decide) (by decide)]
        exact hbr
      · exact map_toLower_idem r.netloc
      · intro c hc
        have h1 := mem_rstripSlash _ _ hc
        rw [hpa] at h1
        exact parsePath_no_hash_question _ c h1
      · exact rstripSlash_idem r.path
      · intro hne
        have hnet : r.netloc ≠ [] := by
          intro h0
          rw [h0] at hne
          exact hne rfl
        rw [hnl] at hnet
        have htk := netlocSplit_fst_ne_imp _ hnet
        have hshape := path_shape_of_netloc_branch _ htk
        rw [hpa]
        exact hshape
      · intro hs0 hn0
        rw [hsc] at hs0
        have hrej : schemeSplit u = ([], u) := schemeSplit_fst_nil_imp u hs0
        have hRu : (schemeSplit u).2 = u := by rw [hrej]
        by_cases htk : (schemeSplit u).2.take 2 = [ '/', '/' ]
        · rcases path_shape_of_netloc_branch _ htk with h | h
          · rw [hpa, h]
            rfl
          · refine schemeSplit_of_head_not_alpha _ ?_
            rw [hpa, h]
            rfl
        · have hnlr := netlocSplit_not _ htk
          have hpath : r.path = parsePath u := by
            rw [hpa, hnlr, hRu]
          rcases parsePath_exists_append u with ⟨t1, ht1⟩
          rcases rstripSlash_exists_append (parsePath u) with ⟨t2, ht2⟩
          have hrej2 : schemeSplit
              (rstripSlash (parsePath u) ++ (t2 ++ t1)) =
              ([], rstripSlash (parsePath u) ++ (t2 ++ t1)) := by
            rw [← List.append_assoc, ht2, ht1]
            exact hrej
          have hres := schemeSplit_reject_of_chop _ _ hrej2
          rw [hpath]
          exact hres
      · intro hn0
        have hnet : r.netloc = [] := List.map_eq_nil_iff.1 hn0
        rcases hsafe r hrr with h | h
        · exact absurd hnet h
        · exact h

theorem splitAtFirst_cons_false (p : Char → Bool) (c : Char) (x : List Char)
    (h : p c = false) :
    splitAtFirst p (c :: x) =
      (c :: (splitAtFirst p x).1, (splitAtFirst p x).2) := by
  simp [splitAtFirst, List.takeWhile_cons, List.dropWhile_cons, h]

theorem schemeSplit_append_stage (u : List Char) (d : Char) (w : List Char)
    (hd1 : (d == ':') = false) (hd2 : isSchemeChar d = false) :
    schemeSplit (u ++ d :: w) =
      ((schemeSplit u).1, (schemeSplit u).2 ++ d :: w) := by
  by_cases hcol : (splitAtFirst (fun x => x == ':') u).2 = []
  · have hsu : schemeSplit u = ([], u) := by
      refine schemeSplit_of_no_colon u ?_
      have hrc := splitAtFirst_recombine (fun x => x == ':') u
      rw [hcol, List.append_nil] at hrc
      intro c hc
      rw [← hrc] at hc
      exact splitAtFirst_fst_all _ u c hc
    rw [hsu]
    refine schemeSplit_of_all_false _ ?_
    rw [splitAtFirst_append_right _ _ _ hcol,
      splitAtFirst_cons_false (fun x => x == ':') d w hd1]
    show ((u ++ d ::
        (splitAtFirst (fun x => x == ':') w).1).all isSchemeChar) = false
    refine List.all_eq_false.2 ⟨d, ?_, ?_⟩
    · exact List.mem_append_right u (List.mem_cons_self d _)
    · rw [hd2]
      simp
  · have hhead := splitAtFirst_snd_head (fun x => x == ':') u hcol
    cases hsnd : (splitAtFirst (fun x => x == ':') u).2 with
    | nil => exact absurd hsnd hcol
    | cons d0 w0 =>
      have hd0 : d0 = ':' := by
        rw [hsnd] at hhead
        exact beq_iff_eq.1 hhead
      subst hd0
      have hcne : u ≠ [] := by
        intro hc0
        rw [hc0] at hsnd
        cases hsnd
      have hrc := splitAtFirst_recombine (fun x => x == ':') u
      rw [hsnd] at hrc
      have hafree := splitAtFirst_fst_all (fun x => x == ':') u
      have hall2 : splitAtFirst (fun x => x == ':') (u ++ d :: w) =
          ((splitAtFirst (fun x => x == ':') u).1,
            ':' :: (w0 ++ d :: w)) := by
        conv_lhs => rw [← hrc]
        rw [List.append_assoc]
        refine splitAtFirst_append_of_head _ _ _ hafree (Or.inr ?_)
        rfl
      have hheadeq : (u ++ d :: w).headD ' ' = u.headD ' ' := by
        cases u with
        | nil => exact absurd rfl hcne
        | cons e y => rfl
      rw [schemeSplit, schemeSplit, hall2, hsnd, hheadeq]
      rw [show ((':' :: (w0 ++ d :: w) : List Char) != []) = true from rfl,
        show ((':' :: w0 : List Char) != []) = true from rfl]
      by_cases hC : ((true && ((splitAtFirst (fun x => x == ':') u).1 !=
          ([] : List Char))) && (u.headD ' ').isAlpha &&
          (splitAtFirst (fun x => x == ':') u).1.all isSchemeChar) = true
      · rw [if_pos hC, if_pos hC]
        rfl
      · rw [if_neg hC, if_neg hC]

theorem netlocSplit_append_stage (R : List Char) (d : Char) (w : List Char)
    (hdelim : isNetlocDelim d = true) (hd : d ≠ '/') :
    netlocSplit (R ++ d :: w) =
      ((netlocSplit R).1, (netlocSplit R).2 ++ d :: w) := by
  by_cases htk : R.take 2 = [ '/', '/' ]
  · obtain ⟨x, rfl⟩ := take2_eq_slash2 R htk
    show netlocSplit ('/' :: '/' :: (x ++ d :: w)) = _
    rw [netlocSplit_cons2, netlocSplit_cons2]
    rw [splitAtFirst_append_delim _ _ _ _ hdelim]
  · have htk2 : (R ++ d :: w).take 2 ≠ [ '/', '/' ] := by
      intro hcon
      obtain ⟨y, hy⟩ := take2_eq_slash2 _ hcon
      cases R with
      | nil =>
        injection hy with h1 _
        exact hd h1
      | cons a y2 =>
        cases y2 with
        | nil =>
          injection hy with h1 hrest
          injection hrest with h2 _
          exact hd h2
        | cons b z =>
          injection hy with h1 hrest
          injection hrest with h2 _
          subst h1
          subst h2
          exact htk rfl
    rw [netlocSplit_not _ htk, netlocSplit_not _ htk2]

theorem urlsplit_parts_general (u s2 r n2 p2 : List Char)
    (hC0 : noC0Space u)
    (hsch : schemeSplit u = (s2, r))
    (hnl : netlocSplit r = (n2, p2))
    (hbr : (n2.contains '[') = (n2.contains ']')) :
    urlsplit u = some ⟨s2, n2, parsePath p2,
      (splitAtFirst (fun c => c == '?')
        ((splitAtFirst (fun c => c == '#') p2).1)).2.tail,
      (splitAtFirst (fun c => c == '#') p2).2.tail⟩ := by
  rw [urlsplit_eq u hC0, hsch, hnl]
  rw [if_neg (show ¬((n2.contains '[') != (n2.contains ']')) = true by
    rw [hbr, bne_self_eq_false]
    simp)]

theorem urlsplit_none_general (u s2 r n2 p2 : List Char)
    (hC0 : noC0Space u)
    (hsch : schemeSplit u = (s2, r))
    (hnl : netlocSplit r = (n2, p2))
    (hbr : (n2.contains '[') ≠ (n2.contains ']')) :
    urlsplit u = none := by
  rw [urlsplit_eq u hC0, hsch, hnl]
  rw [if_pos (show ((n2.contains '[') != (n2.contains ']')) = true from
    bne_iff_ne.2 hbr)]

theorem canonicalizeList_append_query (u q : List Char)
    (hu : noC0Space u) (hq : noC0Space q) :
    canonicalizeList (u ++ '?' :: q) = canonicalizeList u := by
  have hC0a : noC0Space (u ++ '?' :: q) :=
    noC0Space_append hu (noC0Space_cons (by decide) hq)
  have hnea : u ++ '?' :: q ≠ [] := by
    intro hcon
    have hlen := congrArg List.length hcon
    rw [List.length_append] at hlen
    simp at hlen
  have hsch := schemeSplit_append_stage u '?' q (by decide) (by decide)
  have hnl := netlocSplit_append_stage ((schemeSplit u).2) '?' q
    (by decide) (by decide)
  by_cases hu0 : u = []
  · subst hu0
    show canonicalizeList ('?' :: q) = canonicalizeList []
    have hC0b : noC0Space ('?' :: q) := noC0Space_cons (by decide) hq
    have hsch2 : schemeSplit ('?' :: q) = ([], '?' :: q) :=
      schemeSplit_of_head_not_alpha _ rfl
    have htkq : ('?' :: q).take 2 ≠ [ '/', '/' ] := by
      intro hcon
      obtain ⟨y, hy⟩ := take2_eq_slash2 _ hcon
      injection hy with h1 _
      exact absurd h1 (by decide)
    have hnl2 : netlocSplit ('?' :: q) = ([], '?' :: q) :=
      netlocSplit_not _ htkq
    have hres := urlsplit_parts_general ('?' :: q) [] ('?' :: q) []
      ('?' :: q) hC0b hsch2 hnl2 rfl
    rw [canonicalizeList_eq _ hC0b (List.cons_ne_nil _ _), hres]
    have hpp : parsePath ('?' :: q) = [] := by
      rw [parsePath_cons, if_neg (by decide), if_pos (by decide)]
    show some (urlunsplit [] []
        (rstripSlash (parsePath ('?' :: q))) [] []) = canonicalizeList []
    rw [hpp, rstripSlash_nil, urlunsplit_plain_val [] [] (Or.inl rfl),
      if_pos rfl]
    rfl
  · by_cases hbr : ((netlocSplit (schemeSplit u).2).1.contains '[') =
        ((netlocSplit (schemeSplit u).2).1.contains ']')
    · have hres1 := urlsplit_parts_general (u ++ '?' :: q)
        (schemeSplit u).1 ((schemeSplit u).2 ++ '?' :: q)
        (netlocSplit (schemeSplit u).2).1
        ((netlocSplit (schemeSplit u).2).2 ++ '?' :: q)
        hC0a hsch hnl hbr
      have hres2 := urlsplit_parts_general u
        (schemeSplit u).1 (schemeSplit u).2
        (netlocSplit (schemeSplit u).2).1
        (netlocSplit (schemeSplit u).2).2
        hu Prod.mk.eta.symm Prod.mk.eta.symm hbr
      rw [parsePath_append_question] at hres1
      rw [canonicalizeList_eq _ hC0a hnea, hres1,
        canonicalizeList_eq u hu hu0, hres2]
      rfl
    · have hres1 := urlsplit_none_general (u ++ '?' :: q)
        (schemeSplit u).1 ((schemeSplit u).2 ++ '?' :: q)
        (netlocSplit (schemeSplit u).2).1
        ((netlocSplit (schemeSplit u).2).2 ++ '?' :: q)
        hC0a hsch hnl hbr
      have hres2 := urlsplit_none_general u
        (schemeSplit u).1 (schemeSplit u).2
        (netlocSplit (schemeSplit u).2).1
        (netlocSplit (schemeSplit u).2).2
        hu Prod.mk.eta.symm Prod.mk.eta.symm hbr
      rw [canonicalizeList_eq _ hC0a hnea, hres1,
        canonicalizeList_eq u hu hu0, hres2]

theorem canonicalizeList_append_fragment (u f : List Char)
    (hu : noC0Space u) (hf : noC0Space f) :
    canonicalizeList (u ++ '#' :: f) = canonicalizeList u := by
  have hC0a : noC0Space (u ++ '#' :: f) :=
    noC0Space_append hu (noC0Space_cons (by decide) hf)
  have hnea : u ++ '#' :: f ≠ [] := by
    intro hcon
    have hlen := congrArg List.length hcon
    rw [List.length_append] at hlen
    simp at hlen
  have hsch := schemeSplit_append_stage u '#' f (by decide) (by decide)
  have hnl := netlocSplit_append_stage ((schemeSplit u).2) '#' f
    (by decide) (by decide)
  by_cases hu0 : u = []
  · subst hu0
    show canonicalizeList ('#' :: f) = canonicalizeList []
    have hC0b : noC0Space ('#' :: f) := noC0Space_cons (by decide) hf
    have hsch2 : schemeSplit ('#' :: f) = ([], '#' :: f) :=
      schemeSplit_of_head_not_alpha _ rfl
    have htkq : ('#' :: f).take 2 ≠ [ '/', '/' ] := by
      intro hcon
      obtain ⟨y, hy⟩ := take2_eq_slash2 _ hcon
      injection hy with h1 _
      exact absurd h1 (by decide)
    have hnl2 : netlocSplit ('#' :: f) = ([], '#' :: f) :=
      netlocSplit_not _ htkq
    have hres := urlsplit_parts_general ('#' :: f) [] ('#' :: f) []
      ('#' :: f) hC0b hsch2 hnl2 rfl
    rw [canonicalizeList_eq _ hC0b (List.cons_ne_nil _ _), hres]
    have hpp : parsePath ('#' :: f) = [] := by
      rw [parsePath_cons, if_pos (by decide)]
    show some (urlunsplit [] []
        (rstripSlash (parsePath ('#' :: f))) [] []) = canonicalizeList []
    rw [hpp, rstripSlash_nil, urlunsplit_plain_val [] [] (Or.inl rfl),
      if_pos rfl]
    rfl
  · by_cases hbr : ((netlocSplit (schemeSplit u).2).1.contains '[') =
        ((netlocSplit (schemeSplit u).2).1.contains ']')
    · have hres1 := urlsplit_parts_general (u ++ '#' :: f)
        (schemeSplit u).1 ((schemeSplit u).2 ++ '#' :: f)
        (netlocSplit (schemeSplit u).2).1
        ((netlocSplit (schemeSplit u).2).2 ++ '#' :: f)
        hC0a hsch hnl hbr
      have hres2 := urlsplit_parts_general u
        (schemeSplit u).1 (schemeSplit u).2
        (netlocSplit (schemeSplit u).2).1
        (netlocSplit (schemeSplit u).2).2
        hu Prod.mk.eta.symm Prod.mk.eta.symm hbr
      rw [parsePath_append_hash] at hres1
      rw [canonicalizeList_eq _ hC0a hnea, hres1,
        canonicalizeList_eq u hu hu0, hres2]
      rfl
    · have hres1 := urlsplit_none_general (u ++ '#' :: f)
        (schemeSplit u).1 ((schemeSplit u).2 ++ '#' :: f)
        (netlocSplit (schemeSplit u).2).1
        ((netlocSplit (schemeSplit u).2).2 ++ '#' :: f)
        hC0a hsch hnl hbr
      have hres2 := urlsplit_none_general u
        (schemeSplit u).1 (schemeSplit u).2
        (netlocSplit (schemeSplit u).2).1
        (netlocSplit (schemeSplit u).2).2
        hu Prod.mk.eta.symm Prod.mk.eta.symm hbr
      rw [canonicalizeList_eq _ hC0a hnea, hres1,
        canonicalizeList_eq u hu hu0, hres2]

theorem canonicalizeList_append_slash (u : List Char) (hu : noC0Space u) :
    canonicalizeList (u ++ [ '/' ]) = canonicalizeList u := by
  have hC0a : noC0Space (u ++ [ '/' ]) :=
    noC0Space_append hu (noC0Space_cons (by decide) noC0Space_nil)
  have hnea : u ++ [ '/' ] ≠ [] := by
    intro hcon
    have hlen := congrArg List.length hcon
    rw [List.length_append] at hlen
    simp at hlen
  have hsch := schemeSplit_append_stage u '/' [] (by decide) (by decide)
  by_cases hu0 : u = []
  · subst hu0
    show canonicalizeList [ '/' ] = canonicalizeList []
    decide
  · by_cases htk : (schemeSplit u).2.take 2 = [ '/', '/' ]
    · obtain ⟨x, hx⟩ := take2_eq_slash2 _ htk
      have hnlL : netlocSplit ((schemeSplit u).2 ++ [ '/' ]) =
          ((splitAtFirst isNetlocDelim x).1,
            (splitAtFirst isNetlocDelim x).2 ++ [ '/' ]) := by
        rw [hx]
        show netlocSplit ('/' :: '/' :: (x ++ [ '/' ])) = _
        rw [netlocSplit_cons2]
        rw [splitAtFirst_append_delim _ _ _ _ (by decide)]
      have hnlR : netlocSplit (schemeSplit u).2 =
          ((splitAtFirst isNetlocDelim x).1,
            (splitAtFirst isNetlocDelim x).2) := by
        rw [hx, netlocSplit_cons2]
      have hrs : rstripSlash
          (parsePath ((splitAtFirst isNetlocDelim x).2 ++ [ '/' ])) =
          rstripSlash (parsePath (splitAtFirst isNetlocDelim x).2) := by
        rcases parsePath_append_slash_cases
          ((splitAtFirst isNetlocDelim x).2) with h | h
        · rw [h]
        · rw [h, rstripSlash_append_slash]
      by_cases hbr : (((splitAtFirst isNetlocDelim x).1).contains '[') =
          (((splitAtFirst isNetlocDelim x).1).contains ']')
      · have hres1 := urlsplit_parts_general (u ++ [ '/' ])
          (schemeSplit u).1 ((schemeSplit u).2 ++ [ '/' ])
          (splitAtFirst isNetlocDelim x).1
          ((splitAtFirst isNetlocDelim x).2 ++ [ '/' ])
          hC0a hsch hnlL hbr
        have hres2 := urlsplit_parts_general u
          (schemeSplit u).1 (schemeSplit u).2
          (splitAtFirst isNetlocDelim x).1
          (splitAtFirst isNetlocDelim x).2
          hu Prod.mk.eta.symm hnlR hbr
        rw [canonicalizeList_eq _ hC0a hnea, hres1,
          canonicalizeList_eq u hu hu0, hres2]
        show some (urlunsplit (schemeSplit u).1
            ((splitAtFirst isNetlocDelim x).1.map Char.toLower)
            (rstripSlash
              (parsePath ((splitAtFirst isNetlocDelim x).2 ++ [ '/' ])))
            [] []) =
          some (urlunsplit (schemeSplit u).1
            ((splitAtFirst isNetlocDelim x).1.map Char.toLower)
            (rstripSlash (parsePath (splitAtFirst isNetlocDelim x).2))
            [] [])
        rw [hrs]
      · have hres1 := urlsplit_none_general (u ++ [ '/' ])
          (schemeSplit u).1 ((schemeSplit u).2 ++ [ '/' ])
          (splitAtFirst isNetlocDelim x).1
          ((splitAtFirst isNetlocDelim x).2 ++ [ '/' ])
          hC0a hsch hnlL hbr
        have hres2 := urlsplit_none_general u
          (schemeSplit u).1 (schemeSplit u).2
          (splitAtFirst isNetlocDelim x).1
          (splitAtFirst isNetlocDelim x).2
          hu Prod.mk.eta.symm hnlR hbr
        rw [canonicalizeList_eq _ hC0a hnea, hres1,
          canonicalizeList_eq u hu hu0, hres2]
    · by_cases hR1 : (schemeSplit u).2 = [ '/' ]
      · have hnlL : netlocSplit ((schemeSplit u).2 ++ [ '/' ]) =
            ([], []) := by
          rw [hR1]
          rfl
        have hnlR : netlocSplit (schemeSplit u).2 = ([], [ '/' ]) := by
          rw [hR1]
          rfl
        have hres1 := urlsplit_parts_general (u ++ [ '/' ])
          (schemeSplit u).1 ((schemeSplit u).2 ++ [ '/' ])
          [] [] hC0a hsch hnlL rfl
        have hres2 := urlsplit_parts_general u
          (schemeSplit u).1 (schemeSplit u).2
          [] [ '/' ] hu Prod.mk.eta.symm hnlR rfl
        rw [canonicalizeList_eq _ hC0a hnea, hres1,
          canonicalizeList_eq u hu hu0, hres2]
        show some (urlunsplit (schemeSplit u).1 []
            (rstripSlash (parsePath [])) [] []) =
          some (urlunsplit (schemeSplit u).1 []
            (rstripSlash (parsePath [ '/' ])) [] [])
        rw [show rstripSlash (parsePath []) = [] from rfl,
          show rstripSlash (parsePath [ '/' ]) = [] from rfl]
      · have htk2 : ((schemeSplit u).2 ++ [ '/' ]).take 2 ≠
            [ '/', '/' ] := by
          intro hcon
          obtain ⟨y, hy⟩ := take2_eq_slash2 _ hcon
          cases hX : (schemeSplit u).2 with
          | nil =>
            rw [hX] at hy
            injection hy with h1 hrest
            exact List.noConfusion hrest
          | cons a y2 =>
            cases y2 with
            | nil =>
              rw [hX] at hy
              injection hy with h1 hrest
              subst h1
              exact hR1 hX
            | cons b z =>
              rw [hX] at hy htk
              injection hy with h1 hrest
              injection hrest with h2 _
              subst h1
              subst h2
              exact htk rfl
        have hnlL := netlocSplit_not _ htk2
        have hnlR := netlocSplit_not _ htk
        have hrs : rstripSlash (parsePath ((schemeSplit u).2 ++ [ '/' ])) =
            rstripSlash (parsePath (schemeSplit u).2) := by
          rcases parsePath_append_slash_cases ((schemeSplit u).2) with h | h
          · rw [h]
          · rw [h, rstripSlash_append_slash]
        have hres1 := urlsplit_parts_general (u ++ [ '/' ])
          (schemeSplit u).1 ((schemeSplit u).2 ++ [ '/' ])
          [] ((schemeSplit u).2 ++ [ '/' ]) hC0a hsch hnlL rfl
        have hres2 := urlsplit_parts_general u
          (schemeSplit u).1 (schemeSplit u).2
          [] (schemeSplit u).2 hu Prod.mk.eta.symm hnlR rfl
        rw [canonicalizeList_eq _ hC0a hnea, hres1,
          canonicalizeList_eq u hu hu0, hres2]
        show some (urlunsplit (schemeSplit u).1 []
            (rstripSlash (parsePath ((schemeSplit u).2 ++ [ '/' ])))
            [] []) =
          some (urlunsplit (schemeSplit u).1 []
            (rstripSlash (parsePath (schemeSplit u).2)) [] [])
        rw [hrs]

/-- C6 counterexample: on arbitrary strings `canonicalize_url` is neither
idempotent nor invariant under a trailing slash.  The input
`"http://host/a /"` (a space inside the path) canonicalizes to
`"http://host/a "`, which canonicalizes further to `"http://host/a"`; the
two inputs `"http://host/a "` and `"http://host/a " ++ "/"` therefore
differ only by a trailing slash yet canonicalize to different strings. -/
theorem canonicalize_url_not_idempotent :
    canonicalize_url "http://host/a /" = some "http://host/a " ∧
    canonicalize_url "http://host/a " = some "http://host/a" ∧
    ("http://host/a " : String) ≠ "http://host/a" ∧
    "http://host/a " ++ "/" = "http://host/a /" ∧
    canonicalize_url ("http://host/a " ++ "/") ≠
      canonicalize_url "http://host/a " := by
  refine ⟨by decide, by decide, by decide, by decide, by decide⟩

/-- C6: for inputs free of C0 controls and spaces (so that stripping is the
identity), `canonicalize_url` is idempotent provided no parse yields an
empty netloc together with a canonical path starting `"//"` (the case where
re-parsing would mistake the path for a netloc), and two URLs that differ
only by a query string, only by a fragment, or only by one trailing slash
canonicalize to the same string. -/
theorem canonicalize_url_idempotent_suffix_invariant (u q f : String)
    (hu : noC0Space u.toList) (hq : noC0Space q.toList)
    (hf : noC0Space f.toList)
    (hsafe : ∀ r, urlsplit u.toList = some r →
      (r.netloc ≠ [] ∨ (rstripSlash r.path).take 2 ≠ [ '/', '/' ])) :
    (∀ v, canonicalize_url u = some v → canonicalize_url v = some v) ∧
    canonicalize_url (u ++ "?" ++ q) = canonicalize_url u ∧
    canonicalize_url (u ++ "#" ++ f) = canonicalize_url u ∧
    canonicalize_url (u ++ "/") = canonicalize_url u := by
  refine ⟨?_, ?_, ?_, ?_⟩
  · intro v hv
    cases hcl : canonicalizeList u.toList with
    | none =>
      rw [canonicalize_url, hcl] at hv
      cases hv
    | some w =>
      rw [canonicalize_url, hcl] at hv
      have hvw : v = String.mk w := (Option.some.inj hv).symm
      subst hvw
      have hidem := canonicalizeList_idem u.toList w hu hsafe hcl
      rw [canonicalize_url, show (String.mk w).toList = w from rfl, hidem]
      rfl
  · have heq : (u ++ "?" ++ q).toList = u.toList ++ '?' :: q.toList := by
      show (u.toList ++ [ '?' ]) ++ q.toList = u.toList ++ '?' :: q.toList
      rw [List.append_assoc]
      rfl
    rw [canonicalize_url, canonicalize_url, heq,
      canonicalizeList_append_query u.toList q.toList hu hq]
  · have heq : (u ++ "#" ++ f).toList = u.toList ++ '#' :: f.toList := by
      show (u.toList ++ [ '#' ]) ++ f.toList = u.toList ++ '#' :: f.toList
      rw [List.append_assoc]
      rfl
    rw [canonicalize_url, canonicalize_url, heq,
      canonicalizeList_append_fragment u.toList f.toList hu hf]
  · have heq : (u ++ "/").toList = u.toList ++ [ '/' ] := rfl
    rw [canonicalize_url, canonicalize_url, heq,
      canonicalizeList_append_slash u.toList hu]

/-- C6 witness: the theorem applied to `"HTTP://Example.com/a//"` (which
canonicalizes to `"http://example.com/a"`), query `"uid=1"` and fragment
`"frag"`; the parse has the nonempty netloc `Example.com`, so the safety
hypothesis holds. -/
theorem canonicalize_url_idempotent_suffix_invariant_witness :
    (∀ v, canonicalize_url "HTTP://Example.com/a//" = some v →
      canonicalize_url v = some v) ∧
    canonicalize_url ("HTTP://Example.com/a//" ++ "?" ++ "uid=1") =
      canonicalize_url "HTTP://Example.com/a//" ∧
    canonicalize_url ("HTTP://Example.com/a//" ++ "#" ++ "frag") =
      canonicalize_url "HTTP://Example.com/a//" ∧
    canonicalize_url ("HTTP://Example.com/a//" ++ "/") =
      canonicalize_url "HTTP://Example.com/a//" :=
  canonicalize_url_idempotent_suffix_invariant "HTTP://Example.com/a//"
    "uid=1" "frag" (by decide) (by decide) (by decide)
    (fun r hr => by
      rw [show urlsplit ("HTTP://Example.com/a//" : String).toList =
          some ⟨"http".toList, "Example.com".toList, "/a//".toList, [], []⟩
        from by decide] at hr
      obtain rfl := Option.some.inj hr
      exact Or.inl (by decide))

theorem load_posts_mapM_eval (rows : List PostRow)
    (h : ∀ r ∈ rows, (canonicalize_url r.post_url).isSome = true) :
    rows.mapM (fun r => (canonicalize_url r.post_url).map (fun c => (r, c))) =
      some (rows.map (fun r =>
        (r, (canonicalize_url r.post_url).getD ""))) := by
  induction rows with
  | nil => rfl
  | cons r rs ih =>
    have h1 := h r (List.mem_cons_self r rs)
    have ih' := ih (fun x hx => h x (List.mem_cons_of_mem r hx))
    cases hc : canonicalize_url r.post_url with
    | none =>
      rw [hc] at h1
      cases h1
    | some c =>
      rw [List.mapM_cons, ih', hc, List.map_cons]
      show some ((r, c) :: List.map (fun r =>
          (r, (canonicalize_url r.post_url).getD "")) rs) =
        some ((r, (canonicalize_url r.post_url).getD "") :: List.map (fun r =>
          (r, (canonicalize_url r.post_url).getD "")) rs)
      rw [hc]
      rfl

/-- C7 counterexample: two records sharing the `(company, canonical URL)`
pair need not raise the duplicate error, because rows whose text strips to
empty are dropped before `_assert_unique_posts` runs.  `"http://h/p"` and
`"http://h/p/"` share the canonical URL `"http://h/p"`, yet the load
succeeds when the second row's text is a single space; the same table with
non-blank text raises the duplicate error. -/
theorem load_posts_filtered_duplicate_counterexample :
    canonicalize_url "http://h/p/" = some "http://h/p" ∧
    canonicalize_url "http://h/p" = some "http://h/p" ∧
    load_posts "acme" [ ⟨"http://h/p", "hi"⟩, ⟨"http://h/p/", " "⟩ ] =
      Except.ok [ (⟨"http://h/p", "hi"⟩, "http://h/p") ] ∧
    load_posts "acme" [ ⟨"http://h/p", "hi"⟩, ⟨"http://h/p/", "text"⟩ ] =
      Except.error DUPLICATE_POSTS_ERROR :=
  ⟨rfl, rfl, rfl, rfl⟩

/-- C7: on tables whose rows all survive the cleaning filters (canonical
URL defined and nonempty, stripped text nonempty), the load step enforces
exactly one record per `(company, canonical URL)` pair: it succeeds with
every row kept when the pairs are distinct, and raises the duplicate
data-integrity error otherwise. -/
theorem load_posts_unique_pair_enforced (company : String)
    (rows : List PostRow)
    (h : ∀ r ∈ rows, ∃ c, canonicalize_url r.post_url = some c ∧
      c ≠ "" ∧ pyStrip r.post_text ≠ "") :
    ((rows.map (fun r =>
        (company, (canonicalize_url r.post_url).getD ""))).Nodup →
      load_posts company rows = Except.ok (rows.map (fun r =>
        (r, (canonicalize_url r.post_url).getD "")))) ∧
    (¬ (rows.map (fun r =>
        (company, (canonicalize_url r.post_url).getD ""))).Nodup →
      load_posts company rows = Except.error DUPLICATE_POSTS_ERROR) := by
  have hmapM := load_posts_mapM_eval rows (fun r hr => by
    obtain ⟨c, hc, _, _⟩ := h r hr
    rw [hc]
    rfl)
  have hfilter1 : ((rows.map (fun r =>
      (r, (canonicalize_url r.post_url).getD ""))).filter
        (fun rc => rc.2 != "")) =
      rows.map (fun r => (r, (canonicalize_url r.post_url).getD "")) := by
    refine List.filter_eq_self.2 ?_
    intro rc hrc
    rcases List.mem_map.1 hrc with ⟨r, hr, rfl⟩
    obtain ⟨c, hc, hcne, _⟩ := h r hr
    show ((canonicalize_url r.post_url).getD "" != "") = true
    rw [hc]
    exact bne_iff_ne.2 hcne
  have hfilter2 : ((rows.map (fun r =>
      (r, (canonicalize_url r.post_url).getD ""))).filter
        (fun rc => pyStrip rc.1.post_text != "")) =
      rows.map (fun r => (r, (canonicalize_url r.post_url).getD "")) := by
    refine List.filter_eq_self.2 ?_
    intro rc hrc
    rcases List.mem_map.1 hrc with ⟨r, hr, rfl⟩
    obtain ⟨c, hc, _, hts⟩ := h r hr
    show (pyStrip r.post_text != "") = true
    exact bne_iff_ne.2 hts
  have hload : load_posts company rows =
      if (((rows.map (fun r =>
          (r, (canonicalize_url r.post_url).getD ""))).map
            (fun rc => (company, rc.2))).Nodup)
      then Except.ok (rows.map (fun r =>
        (r, (canonicalize_url r.post_url).getD "")))
      else Except.error DUPLICATE_POSTS_ERROR := by
    unfold load_posts
    rw [hmapM]
    show (if ((((rows.map (fun r =>
        (r, (canonicalize_url r.post_url).getD ""))).filter
          (fun rc => rc.2 != "")).filter
          (fun rc => pyStrip rc.1.post_text != "")).map
            (fun rc => (company, rc.2))).Nodup
      then Except.ok (((rows.map (fun r =>
        (r, (canonicalize_url r.post_url).getD ""))).filter
          (fun rc => rc.2 != "")).filter
          (fun rc => pyStrip rc.1.post_text != ""))
      else Except.error DUPLICATE_POSTS_ERROR) = _
    rw [hfilter1, hfilter2]
  have hmm2 : ((rows.map (fun r =>
      (r, (canonicalize_url r.post_url).getD ""))).map
        (fun rc => (company, rc.2))) =
      rows.map (fun r =>
        (company, (canonicalize_url r.post_url).getD "")) := by
    rw [List.map_map]
    rfl
  rw [hmm2] at hload
  constructor
  · intro hnd
    rw [hload, if_pos hnd]
  · intro hnd
    rw [hload, if_neg hnd]

/-- C7 witness: the theorem applied to a two-row table with distinct
canonical URLs; the load succeeds and keeps both rows. -/
theorem load_posts_unique_pair_enforced_witness :
    load_posts "acme" [ ⟨"http://h/a", "x"⟩, ⟨"http://h/b", "y"⟩ ] =
      Except.ok [ (⟨"http://h/a", "x"⟩, "http://h/a"),
        (⟨"http://h/b", "y"⟩, "http://h/b") ] := by
  have happ := (load_posts_unique_pair_enforced "acme"
    [ ⟨"http://h/a", "x"⟩, ⟨"http://h/b", "y"⟩ ]
    (fun r hr => by
      rcases List.mem_cons.1 hr with rfl | hr2
      · exact ⟨"http://h/a", rfl, by decide, by decide⟩
      · rcases List.mem_cons.1 hr2 with rfl | hr3
        · exact ⟨"http://h/b", rfl, by decide, by decide⟩
        · cases hr3)).1 (by decide)
  rw [happ]
  rfl
